import Mathlib

/-!
# Enigma.cpp: a shallow embedding and its verified properties

The development follows `src/Enigma.cpp`.

* A C++ `char` / `int` value is a Lean `Int` (the character code; `'A'` is 65).
  No arithmetic of the program leaves the range of `int` on the inputs
  considered, so no wrap-around is modelled.
* A `std::array<T, 26>` is a `List Int`; reading it at an index outside
  `0..25` is undefined behaviour in C++ and is the error branch `none` here.
* `%` on `int` truncates toward zero: `Int.tmod`.
* Member functions that mutate the object return the new object.
* `std::isalpha` / `toupper` are the "C" locale functions on ASCII codes.
* The tables hold what the classes themselves write into them: character codes in
  `rotor_forward`, `reflector` and `plugboard`, `int` indices in `rotor_backward`; the
  conversion of a table entry to `char` is then the identity and is not modelled.
* The random generator is not modelled: `Rotor.init` takes the outcome of the shuffle.
-/

/-! ## Characters -/

/-- The code is an ASCII character code. -/
def isAscii (c : Int) : Prop := 0 ≤ c ∧ c < 128

instance (c : Int) : Decidable (isAscii c) := by unfold isAscii; infer_instance

/-- Transcribes `std::isalpha` on an ASCII code: `'A'..'Z'` or `'a'..'z'`. -/
def isalpha (c : Int) : Bool := (65 ≤ c && c ≤ 90) || (97 ≤ c && c ≤ 122)

/-- Transcribes `toupper` on an ASCII code: lower-case letters move down by 32. -/
def toupper (c : Int) : Int := if 97 ≤ c ∧ c ≤ 122 then c - 32 else c

/-- The code is one of `'A'..'Z'`. -/
def isUpperLetter (c : Int) : Prop := 65 ≤ c ∧ c ≤ 90

instance (c : Int) : Decidable (isUpperLetter c) := by unfold isUpperLetter; infer_instance

/-- Reads a `std::array<_, 26>` at an `int` index; an index outside `0..25` is the error branch. -/
def arrayAt (a : List Int) (i : Int) : Option Int :=
  if 0 ≤ i ∧ i < 26 then a[i.toNat]? else none

/-! ## Rotor -/

/-- Transcribes `class Rotor`: `position`, `rotor_forward` (letters), `rotor_backward` (indices). -/
structure Rotor where
  position : Int
  rotor_forward : List Int
  rotor_backward : List Int
deriving DecidableEq, Repr

/-- Transcribes `Rotor::turn_rotor`: `position = (position + 1) % 26; return position == 0;`. -/
def Rotor.turn_rotor (r : Rotor) : Rotor × Bool :=
  let r1 : Rotor := { r with position := (r.position + 1).tmod 26 }
  (r1, r1.position == 0)

/-- Transcribes `Rotor::init_position`: `position = letter - 'A'`. -/
def Rotor.init_position (r : Rotor) (letter : Int) : Rotor :=
  { r with position := letter - 65 }

/-- Transcribes `Rotor::encode_forward`: `rotor_forward[(letter - 'A' + position) % 26]`. -/
def Rotor.encode_forward (r : Rotor) (letter : Int) : Option Int :=
  let index := letter - 65
  arrayAt r.rotor_forward ((index + r.position).tmod 26)

/-- Transcribes `Rotor::encode_backward`:
`index = rotor_backward[letter - 'A']; return 'A' + ((26 + index - position) % 26);`. -/
def Rotor.encode_backward (r : Rotor) (letter : Int) : Option Int :=
  (arrayAt r.rotor_backward (letter - 65)).bind fun index =>
    some (65 + (26 + index - r.position).tmod 26)

/-- One iteration `i` of the loop of `Rotor::init`:
`rotor_forward[i] = all[i]; rotor_backward[all[i] - 'A'] = i;`.
An array cell is `none` while nothing has been written to it. -/
def Rotor.initStep (all : List Int)
    (st : List (Option Int) × List (Option Int)) (i : Nat) :
    Option (List (Option Int) × List (Option Int)) :=
  (all[i]?).bind fun a =>
    if 0 ≤ a - 65 ∧ a - 65 < 26 then
      some (st.1.set i (some a), st.2.set (a - 65).toNat (some (i : Int)))
    else none

/-- The loop `for (size_t i = 0; i < 26; ++i)` of `Rotor::init`, from two unwritten arrays. -/
def Rotor.initTables (all : List Int) : Option (List (Option Int) × List (Option Int)) :=
  (List.range 26).foldlM (Rotor.initStep all) (List.replicate 26 none, List.replicate 26 none)

/-- Gives the content of an array once every cell has been written. -/
def allWritten : List (Option Int) → Option (List Int)
  | [] => some []
  | none :: _ => none
  | some a :: rest => (allWritten rest).map (a :: ·)

/-- Transcribes `Rotor::init` after the shuffle: `all` is the shuffled string; `position` keeps
its default member initialiser `0`. The result is `none` when a write is out of bounds or a
cell of either table is left unwritten. -/
def Rotor.init (all : List Int) : Option Rotor :=
  (Rotor.initTables all).bind fun st =>
    (allWritten st.1).bind fun fwd =>
      (allWritten st.2).bind fun bwd =>
        some { position := 0, rotor_forward := fwd, rotor_backward := bwd }

/-! ## Reflector and plugboard -/

/-- Transcribes `class Reflector`: the table `reflector` holds letters. -/
structure Reflector where
  reflector : List Int
deriving DecidableEq, Repr

/-- Transcribes `Reflector::reflect`: `reflector[letter - 'A']`. -/
def Reflector.reflect (u : Reflector) (letter : Int) : Option Int :=
  arrayAt u.reflector (letter - 65)

/-- Transcribes `class Plugboard`: the table `plugboard` holds letters. -/
structure Plugboard where
  plugboard : List Int
deriving DecidableEq, Repr

/-- Transcribes `Plugboard::plugboard_encode`: `plugboard[letter - 'A']`. -/
def Plugboard.plugboard_encode (p : Plugboard) (letter : Int) : Option Int :=
  arrayAt p.plugboard (letter - 65)

/-! ## The machine -/

/-- Transcribes `class Enigma`. -/
structure Enigma where
  rotors : List Rotor
  reflector : Reflector
  plugboard : Plugboard
deriving DecidableEq, Repr

/-- The two ways the constructor of `Enigma` refuses a configuration. -/
inductive ConfigurationError where
  | EmptyRotorSet
  | KeyLengthMismatch
deriving DecidableEq, Repr

/-- The loop `for i < _keys.size(): rotors[i].init_position(toupper(_keys[i]))`. -/
def Enigma.initPositions : List Int → List Rotor → List Rotor
  | k :: ks, r :: rs => r.init_position (toupper k) :: Enigma.initPositions ks rs
  | _, rs => rs

/-- Transcribes the constructor `Enigma::Enigma` (named `create` here, since inside the
namespace of the structure the name `Enigma` has to keep meaning the type): the rotor-count
check, then the key-length check, then the initial positions from the key. -/
def Enigma.create (keys : List Int) (rotors : List Rotor) (reflector : Reflector)
    (plugboard : Plugboard) : Except ConfigurationError Enigma :=
  if rotors.length = 0 then Except.error ConfigurationError.EmptyRotorSet
  else if keys.length ≠ rotors.length then Except.error ConfigurationError.KeyLengthMismatch
  else Except.ok
    { rotors := Enigma.initPositions keys rotors, reflector := reflector, plugboard := plugboard }

/-- The loop `for (it = rotors.begin(); it != rotors.end(); ++it) c = it->encode_forward(c)`. -/
def Enigma.forwardPass : List Rotor → Int → Option Int
  | [], c => some c
  | r :: rs, c => (r.encode_forward c).bind (Enigma.forwardPass rs)

/-- The loop `for (it = rotors.rbegin(); it != rotors.rend(); ++it) c = it->encode_backward(c)`:
the last rotor acts first. -/
def Enigma.backwardPass : List Rotor → Int → Option Int
  | [], c => some c
  | r :: rs, c => (Enigma.backwardPass rs c).bind r.encode_backward

/-- The stepping loop of `Enigma::encode`: turn each rotor in order, stop after the first one
that does not come back to position 0. -/
def Enigma.turnRotors : List Rotor → List Rotor
  | [] => []
  | r :: rs =>
    if r.turn_rotor.2 then r.turn_rotor.1 :: Enigma.turnRotors rs
    else r.turn_rotor.1 :: rs

/-- The substitution path of `Enigma::encode` for one letter (already known to be alphabetic):
`toupper`, plugboard, rotors forward, reflector, rotors backward, plugboard. -/
def Enigma.substitute (m : Enigma) (c : Int) : Option Int :=
  (m.plugboard.plugboard_encode (toupper c)).bind fun c1 =>
    (Enigma.forwardPass m.rotors c1).bind fun c2 =>
      (m.reflector.reflect c2).bind fun c3 =>
        (Enigma.backwardPass m.rotors c3).bind fun c4 =>
          m.plugboard.plugboard_encode c4

/-- The body of the loop of `Enigma::encode` for one character: a non-alphabetic character is
skipped (`continue`), a letter is substituted and then the rotors are turned. -/
def Enigma.encodeChar (m : Enigma) (c : Int) : Option (Enigma × Int) :=
  if !isalpha c then some (m, c)
  else (m.substitute c).bind fun c1 =>
    some ({ m with rotors := Enigma.turnRotors m.rotors }, c1)

/-- Transcribes `Enigma::encode`: the characters are processed in order, in place; the result
is the machine after the call and the buffer after the call. -/
def Enigma.encode (m : Enigma) : List Int → Option (Enigma × List Int)
  | [] => some (m, [])
  | c :: cs =>
    (m.encodeChar c).bind fun r1 =>
      (r1.1.encode cs).bind fun r2 =>
        some (r2.1, r1.2 :: r2.2)

/-- The machine after `n` runs of the stepping loop, its tables untouched. -/
def Enigma.afterLetters (m : Enigma) (n : Nat) : Enigma :=
  { m with rotors := Enigma.turnRotors^[n] m.rotors }

/-- The rotor positions of a machine, in construction order. -/
def Enigma.positions (m : Enigma) : List Int := m.rotors.map Rotor.position

/-- The number of alphabetic characters of a text. -/
def countLetters (s : List Int) : Nat := (s.filter isalpha).length

/-- What the text becomes when every letter is upper-cased and every other character is kept. -/
def upperLetters (s : List Int) : List Int := s.map fun c => if isalpha c then toupper c else c

/-- The output characters standing at the indices where the input has a letter. -/
def lettersOut : List Int → List Int → List Int
  | c :: cs, o :: os => if isalpha c then o :: lettersOut cs os else lettersOut cs os
  | _, _ => []

/-! ## The reference pipeline

These definitions follow the words of the specification, not the code: total table lookups on
alphabet indices `0..25`, the mathematical `mod`, and the stepping cascade as a pure function
of the position vector. -/

/-- The two tables of a rotor, without its position. -/
def Rotor.tables (r : Rotor) : List Int × List Int := (r.rotor_forward, r.rotor_backward)

/-- The rotor tables of a machine, in construction order. -/
def Enigma.rotorTables (m : Enigma) : List (List Int × List Int) := m.rotors.map Rotor.tables

/-- Reference lookup `P` / `U`: the alphabet index of the letter a letter table holds at `x`. -/
def Reference.lookup (t : List Int) (x : Int) : Int := t.getD x.toNat 65 - 65

/-- Reference `F_i(x) = forward_i[(x + q_i) mod 26]`, as an alphabet index. -/
def Reference.F (forward : List Int) (q x : Int) : Int :=
  Reference.lookup forward ((x + q) % 26)

/-- Reference `B_i(y) = (26 + backward_i[y] - q_i) mod 26`. -/
def Reference.B (backward : List Int) (q y : Int) : Int :=
  (26 + backward.getD y.toNat 0 - q) % 26

/-- Reference `F_k(...F_1(x))`: the rotors forward in construction order. -/
def Reference.forward : List (List Int × List Int) → List Int → Int → Int
  | t :: ts, q :: qs, x => Reference.forward ts qs (Reference.F t.1 q x)
  | _, _, x => x

/-- Reference `B_1(...B_k(y))`: the rotors backward in reverse construction order. -/
def Reference.backward : List (List Int × List Int) → List Int → Int → Int
  | t :: ts, q :: qs, y => Reference.B t.2 q (Reference.backward ts qs y)
  | _, _, y => y

/-- Reference `P(B_1(...B_k(U(F_k(...F_1(P(x)))))))` on alphabet indices. -/
def Reference.pipeline (plugboard : List Int) (tables : List (List Int × List Int))
    (reflector : List Int) (q : List Int) (x : Int) : Int :=
  Reference.lookup plugboard
    (Reference.backward tables q
      (Reference.lookup reflector
        (Reference.forward tables q (Reference.lookup plugboard x))))

/-- Reference stepping cascade on a position vector: step the current rotor to
`(position + 1) mod 26`; stop unless the new position is 0. -/
def Reference.cascade : List Int → List Int
  | [] => []
  | p :: ps =>
    if (p + 1) % 26 = 0 then (p + 1) % 26 :: Reference.cascade ps else (p + 1) % 26 :: ps

/-! ## Configuration predicates -/

/-- The rotor position is one of `0..25`. -/
def Rotor.PositionInRange (r : Rotor) : Prop := 0 ≤ r.position ∧ r.position < 26

instance (r : Rotor) : Decidable r.PositionInRange := by
  unfold Rotor.PositionInRange; infer_instance

/-- Both tables have 26 entries, `rotor_forward` holds letters, `rotor_backward` indices. -/
def Rotor.TablesInRange (r : Rotor) : Prop :=
  r.rotor_forward.length = 26 ∧ r.rotor_backward.length = 26 ∧
  (∀ x ∈ r.rotor_forward, isUpperLetter x) ∧ (∀ y ∈ r.rotor_backward, 0 ≤ y ∧ y < 26)

instance (r : Rotor) : Decidable r.TablesInRange := by
  unfold Rotor.TablesInRange; infer_instance

/-- The table `rotor_forward` is a bijection of the 26 letters and `rotor_backward` is its
inverse: both have 26 entries, `rotor_forward` holds letters, and
`rotor_backward[rotor_forward[i] - 'A'] = i` for every index `i`. -/
def Rotor.TablesValid (r : Rotor) : Prop :=
  r.rotor_forward.length = 26 ∧ r.rotor_backward.length = 26 ∧
  (∀ x ∈ r.rotor_forward, isUpperLetter x) ∧
  ∀ i : Nat, i < 26 →
    (arrayAt r.rotor_forward i).bind (fun x => arrayAt r.rotor_backward (x - 65)) = some (i : Int)

instance (r : Rotor) : Decidable r.TablesValid := by
  unfold Rotor.TablesValid; infer_instance

/-- A table of 26 letters. -/
def LetterTable (t : List Int) : Prop := t.length = 26 ∧ ∀ x ∈ t, isUpperLetter x

instance (t : List Int) : Decidable (LetterTable t) := by unfold LetterTable; infer_instance

/-- A table of 26 letters that is an involution: `t[t[i] - 'A'] = 'A' + i` for every index. -/
def InvolutionTable (t : List Int) : Prop :=
  LetterTable t ∧
  ∀ i : Nat, i < 26 → (arrayAt t i).bind (fun x => arrayAt t (x - 65)) = some (65 + (i : Int))

instance (t : List Int) : Decidable (InvolutionTable t) := by
  unfold InvolutionTable; infer_instance

/-- Every table of the machine is in range and every rotor position is one of `0..25`. -/
def Enigma.WellFormed (m : Enigma) : Prop :=
  (∀ r ∈ m.rotors, r.TablesInRange ∧ r.PositionInRange) ∧
  LetterTable m.reflector.reflector ∧ LetterTable m.plugboard.plugboard

instance (m : Enigma) : Decidable m.WellFormed := by unfold Enigma.WellFormed; infer_instance

/-- A valid configuration: every rotor table pair is a bijection with its inverse, every rotor
position is one of `0..25`, the reflector and the plugboard are involutions. -/
def Enigma.Valid (m : Enigma) : Prop :=
  (∀ r ∈ m.rotors, r.TablesValid ∧ r.PositionInRange) ∧
  InvolutionTable m.reflector.reflector ∧ InvolutionTable m.plugboard.plugboard

instance (m : Enigma) : Decidable m.Valid := by unfold Enigma.Valid; infer_instance

/-! ## Fixtures -/

/-- The table `A, B, ..., Z` (letters). -/
def identityLetters : List Int := (List.range 26).map fun i => 65 + (i : Int)

/-- The table `0, 1, ..., 25` (indices). -/
def identityIndices : List Int := (List.range 26).map fun i => (i : Int)

/-- A rotor whose two tables are the identity. -/
def identityRotor : Rotor :=
  { position := 0, rotor_forward := identityLetters, rotor_backward := identityIndices }

/-- The reflector that swaps adjacent letters: `A<->B, C<->D, ..., Y<->Z`. -/
def adjacentReflector : Reflector :=
  { reflector := (List.range 26).map fun i => if i % 2 = 0 then 66 + (i : Int) else 64 + (i : Int) }

/-- The plugboard with no cable: the identity table. -/
def identityPlugboard : Plugboard := { plugboard := identityLetters }

/-- The text as character codes. -/
def codes (s : String) : List Int := s.toList.map fun ch => (ch.toNat : Int)

/-- A rotor with a scrambled wiring and the matching inverse table. -/
def scrambledRotorA : Rotor :=
  { position := 0,
    rotor_forward := codes "EKMFLGDQVZNTOWYHXUSPAIBRCJ",
    rotor_backward := [20, 22, 24, 6, 0, 3, 5, 15, 21, 25, 1, 4, 2, 10, 12, 19, 7, 23, 18, 11,
      17, 8, 13, 16, 14, 9] }

/-- A second rotor with a scrambled wiring and the matching inverse table. -/
def scrambledRotorB : Rotor :=
  { position := 0,
    rotor_forward := codes "AJDKSIRUXBLHWTMCQGZNPYFVOE",
    rotor_backward := [0, 9, 15, 2, 25, 22, 17, 11, 5, 1, 3, 10, 14, 19, 24, 20, 16, 6, 4, 13,
      7, 23, 12, 8, 21, 18] }

/-- A reflector pairing the letters without a fixed point. -/
def pairedReflector : Reflector := { reflector := codes "YRUHQSLDPXNGOKMIEBFZCWVJAT" }

/-- A plugboard with the three cables `A<->M`, `C<->Q`, `H<->Z`. -/
def cabledPlugboard : Plugboard := { plugboard := codes "MBQDEFGZIJKLANOPCRSTUVWXYH" }

/-- A machine about to carry: the two scrambled rotors at position 25, an identity rotor at
position 3, the paired reflector and the cabled plugboard. -/
def carryMachine : Enigma :=
  Enigma.mk [{ scrambledRotorA with position := 25 }, { scrambledRotorB with position := 25 },
    { identityRotor with position := 3 }] pairedReflector cabledPlugboard

/-- The machine of the worked example: three identity rotors, the adjacent-letter reflector,
no plugboard cable, key `AAA`. -/
def exampleMachine : Except ConfigurationError Enigma :=
  Enigma.create (codes "AAA") [identityRotor, identityRotor, identityRotor]
    adjacentReflector identityPlugboard

/-! ## Reflector::init, Plugboard::init and sequences of calls -/

/-- Models `std::set_difference` on two sorted ranges of distinct letters, by its documented
result: the elements of the first range that are not found in the second, in order. -/
def setDifference (a b : List Int) : List Int := a.filter fun x => !b.contains x

/-- One iteration `i` of the loop of `Reflector::init`:
`reflector[part1[i] - 'A'] = part2[i]; reflector[part2[i] - 'A'] = part1[i];`.
An array cell is `none` while nothing has been written to it. -/
def Reflector.initStep (part1 part2 : List Int) (t : List (Option Int)) (i : Nat) :
    Option (List (Option Int)) :=
  (part1[i]?).bind fun a =>
    (part2[i]?).bind fun b =>
      if (0 ≤ a - 65 ∧ a - 65 < 26) ∧ (0 ≤ b - 65 ∧ b - 65 < 26) then
        some ((t.set (a - 65).toNat (some b)).set (b - 65).toNat (some a))
      else none

/-- Transcribes `Reflector::init` after the random steps: `part1` is the outcome of the sample,
`part2` the outcome of the shuffle of the set difference; the loop
`for (size_t i = 0; i < 13; ++i)` starts from an unwritten table. The result is `none` when an
access is out of bounds or a cell is left unwritten. -/
def Reflector.init (part1 part2 : List Int) : Option Reflector :=
  ((List.range 13).foldlM (Reflector.initStep part1 part2) (List.replicate 26 none)).bind
    fun t => (allWritten t).map Reflector.mk

/-- Transcribes `std::swap(plugboard[a], plugboard[b])`, bounds-checked. -/
def Plugboard.swapEntries (t : List Int) (a b : Int) : Option (List Int) :=
  (arrayAt t a).bind fun x =>
    (arrayAt t b).bind fun y =>
      some ((t.set a.toNat y).set b.toNat x)

/-- The loop `while (cnt--)` of `Plugboard::init`: `swaps` holds the pairs `(a, b)` drawn, in
order, so `cnt` is its length. -/
def Plugboard.applySwaps : List Int → List (Int × Int) → Option (List Int)
  | t, [] => some t
  | t, s :: rest => (Plugboard.swapEntries t s.1 s.2).bind fun t1 => Plugboard.applySwaps t1 rest

/-- Transcribes `Plugboard::init` after the random draws, from the default member initialiser
`'A', ..., 'Z'`. -/
def Plugboard.init (swaps : List (Int × Int)) : Option Plugboard :=
  (Plugboard.applySwaps identityLetters swaps).map Plugboard.mk

/-- The draws `Plugboard::init` can make: `cnt` in `0..6`, every index in `0..25`. -/
def Plugboard.CanDraw (swaps : List (Int × Int)) : Prop :=
  swaps.length ≤ 6 ∧ ∀ s ∈ swaps, (0 ≤ s.1 ∧ s.1 < 26) ∧ (0 ≤ s.2 ∧ s.2 < 26)

instance (swaps : List (Int × Int)) : Decidable (Plugboard.CanDraw swaps) := by
  unfold Plugboard.CanDraw; infer_instance

/-- The indices touched by a sequence of swaps, in order. -/
def Plugboard.touched : List (Int × Int) → List Int
  | [] => []
  | s :: rest => s.1 :: s.2 :: Plugboard.touched rest

/-- No letter of the table is at its own index. -/
def NoFixedPoint (t : List Int) : Prop :=
  ∀ i : Nat, i < 26 → arrayAt t i ≠ some (65 + (i : Int))

instance (t : List Int) : Decidable (NoFixedPoint t) := by unfold NoFixedPoint; infer_instance

/-- The machine left by successive calls of `encode` on the given texts, in order. -/
def Enigma.afterCalls : Enigma → List (List Int) → Option Enigma
  | m, [] => some m
  | m, s :: rest => (m.encode s).bind fun r => Enigma.afterCalls r.1 rest

/-- The machine the constructor builds from key `CtR`, the two scrambled rotors and an identity
rotor, the paired reflector and the cabled plugboard. -/
def keyedMachine : Enigma :=
  Enigma.mk (Enigma.initPositions (codes "CtR") [scrambledRotorA, scrambledRotorB, identityRotor])
    pairedReflector cabledPlugboard

/-! ## Basic facts: arrays and remainders -/

theorem arrayAt_eq_some {a : List Int} {i x : Int} (h : arrayAt a i = some x) :
    0 ≤ i ∧ i < 26 ∧ a[i.toNat]? = some x ∧ x ∈ a := by
  unfold arrayAt at h
  split at h
  · rename_i hi
    exact ⟨hi.1, hi.2, h, List.getElem?_mem h⟩
  · cases h

theorem arrayAt_isSome {a : List Int} (hl : a.length = 26) {i : Int} (h0 : 0 ≤ i) (h1 : i < 26) :
    ∃ x, arrayAt a i = some x ∧ x ∈ a := by
  have hlt : i.toNat < a.length := by omega
  refine ⟨a[i.toNat], ?_, List.getElem_mem hlt⟩
  unfold arrayAt
  rw [if_pos ⟨h0, h1⟩]
  exact List.getElem?_eq_getElem hlt

theorem arrayAt_natCast (a : List Int) (i : Nat) (h : i < 26) : arrayAt a (i : Int) = a[i]? := by
  unfold arrayAt
  rw [if_pos ⟨by omega, by omega⟩]
  simp

theorem tmod26_of_nonneg {a : Int} (h : 0 ≤ a) : a.tmod 26 = a % 26 :=
  Int.tmod_eq_emod h (by decide)

theorem isalpha_of_isUpperLetter {c : Int} (h : isUpperLetter c) : isalpha c = true := by
  unfold isUpperLetter at h
  simp [isalpha, h.1, h.2]

theorem toupper_of_isUpperLetter {c : Int} (h : isUpperLetter c) : toupper c = c := by
  unfold isUpperLetter at h
  unfold toupper
  rw [if_neg]; omega

theorem isUpperLetter_toupper {c : Int} (h : isalpha c = true) : isUpperLetter (toupper c) := by
  unfold isalpha at h
  unfold toupper isUpperLetter
  simp only [Bool.or_eq_true, Bool.and_eq_true, decide_eq_true_eq] at h
  split <;> omega

/-! ## Rotor tables -/

theorem Rotor.TablesValid.backward_of_forward {r : Rotor} (hv : r.TablesValid) {i x : Int}
    (h : arrayAt r.rotor_forward i = some x) : arrayAt r.rotor_backward (x - 65) = some i := by
  obtain ⟨h0, h1, -, -⟩ := arrayAt_eq_some h
  have key := hv.2.2.2 i.toNat (by omega)
  have hi : ((i.toNat : Nat) : Int) = i := Int.toNat_of_nonneg h0
  rw [hi, h] at key
  simpa using key

theorem Rotor.TablesValid.forward_isSome {r : Rotor} (hv : r.TablesValid) {i : Int}
    (h0 : 0 ≤ i) (h1 : i < 26) :
    ∃ x, arrayAt r.rotor_forward i = some x ∧ isUpperLetter x := by
  obtain ⟨x, hx, hm⟩ := arrayAt_isSome hv.1 h0 h1
  exact ⟨x, hx, hv.2.2.1 x hm⟩

/-- The index map of `rotor_forward`, as a map of `Fin 26`. -/
theorem Rotor.TablesValid.exists_indexMap {r : Rotor} (hv : r.TablesValid) :
    ∃ f : Fin 26 → Fin 26, ∀ i : Fin 26,
      arrayAt r.rotor_forward (i.val : Int) = some (65 + ((f i).val : Int)) := by
  have h : ∀ i : Fin 26, ∃ j : Fin 26,
      arrayAt r.rotor_forward (i.val : Int) = some (65 + (j.val : Int)) := by
    intro i
    obtain ⟨x, hx, hu⟩ := hv.forward_isSome (i := (i.val : Int)) (by omega) (by omega)
    unfold isUpperLetter at hu
    refine ⟨⟨(x - 65).toNat, by omega⟩, ?_⟩
    rw [hx]
    congr 1
    simp only
    omega
  exact ⟨fun i => (h i).choose, fun i => (h i).choose_spec⟩

theorem Rotor.TablesValid.forward_of_backward_index {r : Rotor} (hv : r.TablesValid) {j : Int}
    (h0 : 0 ≤ j) (h1 : j < 26) :
    ∃ i : Int, 0 ≤ i ∧ i < 26 ∧ arrayAt r.rotor_backward j = some i ∧
      arrayAt r.rotor_forward i = some (65 + j) := by
  obtain ⟨f, hf⟩ := hv.exists_indexMap
  have hinj : Function.Injective f := by
    intro a b hab
    have ha := hv.backward_of_forward (hf a)
    have hb := hv.backward_of_forward (hf b)
    rw [hab, hb] at ha
    have : ((b.val : Nat) : Int) = (a.val : Int) := by injection ha
    exact Fin.ext (by omega)
  obtain ⟨i, hi⟩ := (Finite.injective_iff_surjective.mp hinj) ⟨j.toNat, by omega⟩
  have hfi := hf i
  have hj : (((f i).val : Nat) : Int) = j := by
    rw [hi]; simp only; omega
  rw [hj] at hfi
  refine ⟨(i.val : Int), by omega, by omega, ?_, hfi⟩
  have := hv.backward_of_forward hfi
  simpa using this

theorem Rotor.TablesValid.tablesInRange {r : Rotor} (hv : r.TablesValid) : r.TablesInRange := by
  refine ⟨hv.1, hv.2.1, hv.2.2.1, ?_⟩
  intro y hy
  obtain ⟨n, hn⟩ := List.mem_iff_getElem?.mp hy
  have hlt : n < 26 := by
    have := (List.getElem?_eq_some.mp hn).1
    rw [hv.2.1] at this; exact this
  obtain ⟨i, hi0, hi1, hb, -⟩ := hv.forward_of_backward_index (j := (n : Int)) (by omega) (by omega)
  rw [arrayAt_natCast _ _ hlt, hn] at hb
  injection hb with hb
  omega

/-! ## One rotor, one letter -/

theorem Rotor.encode_forward_eq (r : Rotor) (hp : r.PositionInRange) {x : Int}
    (hx : isUpperLetter x) :
    r.encode_forward x = arrayAt r.rotor_forward ((x - 65 + r.position) % 26) := by
  unfold Rotor.PositionInRange at hp
  unfold isUpperLetter at hx
  unfold Rotor.encode_forward
  simp only
  rw [tmod26_of_nonneg (by omega)]

theorem Rotor.encode_backward_eq (r : Rotor) (hp : r.PositionInRange) {y i : Int}
    (hi : arrayAt r.rotor_backward (y - 65) = some i) (h0 : 0 ≤ i) :
    r.encode_backward y = some (65 + (26 + i - r.position) % 26) := by
  unfold Rotor.PositionInRange at hp
  unfold Rotor.encode_backward
  rw [hi]
  simp only [Option.some_bind]
  rw [tmod26_of_nonneg (by omega)]

theorem Rotor.encode_forward_isSome {r : Rotor} (ht : r.TablesInRange) (hp : r.PositionInRange)
    {x : Int} (hx : isUpperLetter x) :
    ∃ y, r.encode_forward x = some y ∧ isUpperLetter y := by
  rw [r.encode_forward_eq hp hx]
  obtain ⟨y, hy, hm⟩ := arrayAt_isSome ht.1 (i := (x - 65 + r.position) % 26) (by omega) (by omega)
  exact ⟨y, hy, ht.2.2.1 y hm⟩

theorem Rotor.encode_backward_isSome {r : Rotor} (ht : r.TablesInRange) (hp : r.PositionInRange)
    {y : Int} (hy : isUpperLetter y) :
    ∃ x, r.encode_backward y = some x ∧ isUpperLetter x := by
  have hy2 := hy
  unfold isUpperLetter at hy2
  obtain ⟨i, hi, hm⟩ := arrayAt_isSome ht.2.1 (i := y - 65) (by omega) (by omega)
  have hr := ht.2.2.2 i hm
  refine ⟨_, r.encode_backward_eq hp hi hr.1, ?_⟩
  unfold isUpperLetter
  omega

theorem Rotor.backward_forward {r : Rotor} (hv : r.TablesValid) (hp : r.PositionInRange)
    {x y : Int} (hx : isUpperLetter x) (h : r.encode_forward x = some y) :
    r.encode_backward y = some x := by
  rw [r.encode_forward_eq hp hx] at h
  have hb := hv.backward_of_forward h
  rw [r.encode_backward_eq hp hb (by omega)]
  unfold Rotor.PositionInRange at hp
  unfold isUpperLetter at hx
  congr 1
  omega

theorem Rotor.forward_backward {r : Rotor} (hv : r.TablesValid) (hp : r.PositionInRange)
    {x y : Int} (hy : isUpperLetter y) (h : r.encode_backward y = some x) :
    r.encode_forward x = some y := by
  have hy2 := hy
  unfold isUpperLetter at hy2
  have hp2 := hp
  unfold Rotor.PositionInRange at hp2
  obtain ⟨i, hi0, hi1, hb, hf⟩ := hv.forward_of_backward_index (j := y - 65) (by omega) (by omega)
  rw [r.encode_backward_eq hp hb hi0] at h
  injection h with h
  have hx : isUpperLetter x := by unfold isUpperLetter; omega
  rw [r.encode_forward_eq hp hx]
  have e1 : (x - 65 + r.position) % 26 = i := by omega
  have e2 : 65 + (y - 65) = y := by omega
  rw [e1, hf, e2]

/-! ## Letter tables -/

theorem LetterTable.lookup_isSome {t : List Int} (ht : LetterTable t) {x : Int}
    (hx : isUpperLetter x) : ∃ y, arrayAt t (x - 65) = some y ∧ isUpperLetter y := by
  unfold isUpperLetter at hx
  obtain ⟨y, hy, hm⟩ := arrayAt_isSome ht.1 (i := x - 65) (by omega) (by omega)
  exact ⟨y, hy, ht.2 y hm⟩

theorem InvolutionTable.lookup_lookup {t : List Int} (ht : InvolutionTable t) {x y : Int}
    (h : arrayAt t (x - 65) = some y) : arrayAt t (y - 65) = some x := by
  obtain ⟨h0, h1, -, -⟩ := arrayAt_eq_some h
  have key := ht.2 (x - 65).toNat (by omega)
  have hi : (((x - 65).toNat : Nat) : Int) = x - 65 := Int.toNat_of_nonneg h0
  rw [hi, h] at key
  have e : 65 + (x - 65) = x := by omega
  rw [e] at key
  simpa using key

/-! ## The rotor passes -/

theorem Enigma.forwardPass_isSome {rs : List Rotor}
    (h : ∀ r ∈ rs, r.TablesInRange ∧ r.PositionInRange) {x : Int} (hx : isUpperLetter x) :
    ∃ y, Enigma.forwardPass rs x = some y ∧ isUpperLetter y := by
  induction rs generalizing x with
  | nil => exact ⟨x, rfl, hx⟩
  | cons r rs ih =>
    have hr := h r (List.mem_cons_self r rs)
    obtain ⟨z, hz, hzu⟩ := Rotor.encode_forward_isSome hr.1 hr.2 hx
    obtain ⟨y, hy, hyu⟩ := ih (fun q hq => h q (List.mem_cons_of_mem r hq)) hzu
    exact ⟨y, by simp [Enigma.forwardPass, hz, hy], hyu⟩

theorem Enigma.backwardPass_isSome {rs : List Rotor}
    (h : ∀ r ∈ rs, r.TablesInRange ∧ r.PositionInRange) {y : Int} (hy : isUpperLetter y) :
    ∃ x, Enigma.backwardPass rs y = some x ∧ isUpperLetter x := by
  induction rs with
  | nil => exact ⟨y, rfl, hy⟩
  | cons r rs ih =>
    have hr := h r (List.mem_cons_self r rs)
    obtain ⟨z, hz, hzu⟩ := ih (fun q hq => h q (List.mem_cons_of_mem r hq))
    obtain ⟨x, hx, hxu⟩ := Rotor.encode_backward_isSome hr.1 hr.2 hzu
    exact ⟨x, by simp [Enigma.backwardPass, hz, hx], hxu⟩

theorem Enigma.backwardPass_forwardPass {rs : List Rotor}
    (h : ∀ r ∈ rs, r.TablesValid ∧ r.PositionInRange) {x y : Int} (hx : isUpperLetter x)
    (hf : Enigma.forwardPass rs x = some y) : Enigma.backwardPass rs y = some x := by
  induction rs generalizing x with
  | nil =>
    simp only [Enigma.forwardPass, Option.some.injEq] at hf
    simp [Enigma.backwardPass, hf]
  | cons r rs ih =>
    have hr := h r (List.mem_cons_self r rs)
    obtain ⟨z, hz, hzu⟩ := Rotor.encode_forward_isSome hr.1.tablesInRange hr.2 hx
    simp only [Enigma.forwardPass, hz, Option.some_bind] at hf
    have hb := ih (fun q hq => h q (List.mem_cons_of_mem r hq)) hzu hf
    simp only [Enigma.backwardPass, hb, Option.some_bind]
    exact Rotor.backward_forward hr.1 hr.2 hx hz

theorem Enigma.forwardPass_backwardPass {rs : List Rotor}
    (h : ∀ r ∈ rs, r.TablesValid ∧ r.PositionInRange) {x y : Int} (hy : isUpperLetter y)
    (hb : Enigma.backwardPass rs y = some x) : Enigma.forwardPass rs x = some y := by
  induction rs generalizing x with
  | nil =>
    simp only [Enigma.backwardPass, Option.some.injEq] at hb
    simp [Enigma.forwardPass, hb]
  | cons r rs ih =>
    have hr := h r (List.mem_cons_self r rs)
    have hrest : ∀ q ∈ rs, q.TablesValid ∧ q.PositionInRange :=
      fun q hq => h q (List.mem_cons_of_mem r hq)
    obtain ⟨z, hz, hzu⟩ := Enigma.backwardPass_isSome
      (fun q hq => ⟨(hrest q hq).1.tablesInRange, (hrest q hq).2⟩) hy
    simp only [Enigma.backwardPass, hz, Option.some_bind] at hb
    have hf := Rotor.forward_backward hr.1 hr.2 hzu hb
    simp only [Enigma.forwardPass, hf, Option.some_bind]
    exact ih hrest hz

/-! ## The substitution of one letter -/

theorem InvolutionTable.letterTable {t : List Int} (h : InvolutionTable t) : LetterTable t := h.1

theorem Enigma.Valid.wellFormed {m : Enigma} (h : m.Valid) : m.WellFormed :=
  ⟨fun r hr => ⟨(h.1 r hr).1.tablesInRange, (h.1 r hr).2⟩, h.2.1.1, h.2.2.1⟩

theorem Enigma.substitute_isSome {m : Enigma} (hw : m.WellFormed) {c : Int}
    (hc : isalpha c = true) : ∃ y, m.substitute c = some y ∧ isUpperLetter y := by
  obtain ⟨c1, h1, u1⟩ := hw.2.2.lookup_isSome (isUpperLetter_toupper hc)
  obtain ⟨c2, h2, u2⟩ := Enigma.forwardPass_isSome hw.1 u1
  obtain ⟨c3, h3, u3⟩ := hw.2.1.lookup_isSome u2
  obtain ⟨c4, h4, u4⟩ := Enigma.backwardPass_isSome hw.1 u3
  obtain ⟨c5, h5, u5⟩ := hw.2.2.lookup_isSome u4
  refine ⟨c5, ?_, u5⟩
  simp [Enigma.substitute, Plugboard.plugboard_encode, Reflector.reflect, h1, h2, h3, h4, h5]

theorem Enigma.substitute_substitute {m : Enigma} (hv : m.Valid) {c y : Int}
    (hc : isalpha c = true) (h : m.substitute c = some y) :
    m.substitute y = some (toupper c) := by
  have hw := hv.wellFormed
  obtain ⟨c1, h1, u1⟩ := hw.2.2.lookup_isSome (isUpperLetter_toupper hc)
  obtain ⟨c2, h2, u2⟩ := Enigma.forwardPass_isSome hw.1 u1
  obtain ⟨c3, h3, u3⟩ := hw.2.1.lookup_isSome u2
  obtain ⟨c4, h4, u4⟩ := Enigma.backwardPass_isSome hw.1 u3
  obtain ⟨c5, h5, u5⟩ := hw.2.2.lookup_isSome u4
  have e : y = c5 := by
    simp [Enigma.substitute, Plugboard.plugboard_encode, Reflector.reflect, h1, h2, h3, h4, h5] at h
    exact h.symm
  subst e
  have g5 := hv.2.2.lookup_lookup h5
  have g4 := Enigma.forwardPass_backwardPass hv.1 u3 h4
  have g3 := hv.2.1.lookup_lookup h3
  have g2 := Enigma.backwardPass_forwardPass hv.1 u1 h2
  have g1 := hv.2.2.lookup_lookup h1
  simp [Enigma.substitute, Plugboard.plugboard_encode, Reflector.reflect,
    toupper_of_isUpperLetter u5, g1, g2, g3, g4, g5]

/-! ## Stepping -/

theorem Rotor.turn_rotor_positionInRange {r : Rotor} (h : r.PositionInRange) :
    r.turn_rotor.1.PositionInRange := by
  unfold Rotor.PositionInRange at h ⊢
  simp only [Rotor.turn_rotor]
  rw [tmod26_of_nonneg (by omega)]
  omega

theorem Enigma.turnRotors_forall (P : Rotor → Prop) (hP : ∀ r, P r → P r.turn_rotor.1)
    {rs : List Rotor} (h : ∀ r ∈ rs, P r) : ∀ r ∈ Enigma.turnRotors rs, P r := by
  induction rs with
  | nil => intro r hr; simp [Enigma.turnRotors] at hr
  | cons a rs ih =>
    have ha := hP a (h a (List.mem_cons_self a rs))
    have hrest : ∀ q ∈ rs, P q := fun q hq => h q (List.mem_cons_of_mem a hq)
    intro r hr
    unfold Enigma.turnRotors at hr
    split at hr
    · rcases List.mem_cons.mp hr with e | e
      · rw [e]; exact ha
      · exact ih hrest r e
    · rcases List.mem_cons.mp hr with e | e
      · rw [e]; exact ha
      · exact hrest r e

theorem Enigma.afterLetters_zero (m : Enigma) : m.afterLetters 0 = m := rfl

theorem Enigma.afterLetters_succ (m : Enigma) (n : Nat) :
    (m.afterLetters 1).afterLetters n = m.afterLetters (n + 1) := by
  simp [Enigma.afterLetters, Function.iterate_succ_apply]

theorem Enigma.WellFormed.after_one_letter {m : Enigma} (h : m.WellFormed) :
    (m.afterLetters 1).WellFormed := by
  refine ⟨?_, h.2.1, h.2.2⟩
  exact Enigma.turnRotors_forall (fun r => r.TablesInRange ∧ r.PositionInRange)
    (fun r hr => ⟨hr.1, Rotor.turn_rotor_positionInRange hr.2⟩) h.1

theorem Enigma.Valid.valid_after_one_letter {m : Enigma} (h : m.Valid) : (m.afterLetters 1).Valid := by
  refine ⟨?_, h.2.1, h.2.2⟩
  exact Enigma.turnRotors_forall (fun r => r.TablesValid ∧ r.PositionInRange)
    (fun r hr => ⟨hr.1, Rotor.turn_rotor_positionInRange hr.2⟩) h.1

theorem Enigma.WellFormed.after_letters {m : Enigma} (h : m.WellFormed) (n : Nat) :
    (m.afterLetters n).WellFormed := by
  induction n generalizing m with
  | zero => exact h
  | succ n ih => rw [← Enigma.afterLetters_succ]; exact ih h.after_one_letter

/-! ## One character -/

theorem Enigma.encodeChar_of_not_isalpha (m : Enigma) {c : Int} (hc : isalpha c = false) :
    m.encodeChar c = some (m, c) := by
  simp [Enigma.encodeChar, hc]

theorem Enigma.encodeChar_of_isalpha (m : Enigma) {c : Int} (hc : isalpha c = true) :
    m.encodeChar c = (m.substitute c).map fun y => (m.afterLetters 1, y) := by
  simp only [Enigma.encodeChar, hc, Bool.not_true, Bool.false_eq_true, if_false]
  cases m.substitute c <;> rfl

/-! ## The whole text -/

theorem countLetters_cons_of_isalpha {c : Int} (cs : List Int) (hc : isalpha c = true) :
    countLetters (c :: cs) = countLetters cs + 1 := by
  simp [countLetters, List.filter_cons, hc]

theorem countLetters_cons_of_not_isalpha {c : Int} (cs : List Int) (hc : isalpha c = false) :
    countLetters (c :: cs) = countLetters cs := by
  simp [countLetters, List.filter_cons, hc]

theorem Enigma.encode_cons_of_not_isalpha (m : Enigma) {c : Int} (cs : List Int)
    (hc : isalpha c = false) :
    m.encode (c :: cs) = (m.encode cs).map fun r => (r.1, c :: r.2) := by
  simp only [Enigma.encode, m.encodeChar_of_not_isalpha hc, Option.some_bind]
  cases m.encode cs <;> rfl

theorem Enigma.encode_cons_of_isalpha (m : Enigma) {c : Int} (cs : List Int)
    (hc : isalpha c = true) :
    m.encode (c :: cs) = (m.substitute c).bind fun y =>
      ((m.afterLetters 1).encode cs).map fun r => (r.1, y :: r.2) := by
  simp only [Enigma.encode, m.encodeChar_of_isalpha hc]
  cases m.substitute c with
  | none => rfl
  | some y =>
    simp only [Option.map_some', Option.some_bind]
    cases (m.afterLetters 1).encode cs <;> rfl

/-- Whenever `encode` returns, the machine it leaves is the initial one after as many stepping
cascades as the text has letters, and the buffer keeps its length. -/
theorem Enigma.encode_eq_some {m : Enigma} {s : List Int} {r : Enigma × List Int}
    (h : m.encode s = some r) :
    r.1 = m.afterLetters (countLetters s) ∧ r.2.length = s.length := by
  induction s generalizing m r with
  | nil =>
    simp only [Enigma.encode, Option.some.injEq] at h
    subst h
    exact ⟨rfl, rfl⟩
  | cons c cs ih =>
    cases hc : isalpha c with
    | false =>
      rw [m.encode_cons_of_not_isalpha cs hc] at h
      cases h2 : m.encode cs with
      | none => rw [h2] at h; cases h
      | some r2 =>
        rw [h2] at h
        simp only [Option.map_some', Option.some.injEq] at h
        subst h
        have := ih h2
        rw [countLetters_cons_of_not_isalpha cs hc]
        exact ⟨this.1, by simp [this.2]⟩
    | true =>
      rw [m.encode_cons_of_isalpha cs hc] at h
      cases h1 : m.substitute c with
      | none => rw [h1] at h; cases h
      | some y =>
        rw [h1] at h
        simp only [Option.some_bind] at h
        cases h2 : (m.afterLetters 1).encode cs with
        | none => rw [h2] at h; cases h
        | some r2 =>
          rw [h2] at h
          simp only [Option.map_some', Option.some.injEq] at h
          subst h
          have := ih h2
          rw [countLetters_cons_of_isalpha cs hc, ← Enigma.afterLetters_succ]
          exact ⟨this.1, by simp [this.2]⟩

/-- On a well-formed machine `encode` returns: no lookup leaves its table. -/
theorem Enigma.encode_isSome {m : Enigma} (hw : m.WellFormed) (s : List Int) :
    ∃ r, m.encode s = some r := by
  induction s generalizing m with
  | nil => exact ⟨(m, []), rfl⟩
  | cons c cs ih =>
    cases hc : isalpha c with
    | false =>
      obtain ⟨r, hr⟩ := ih hw
      exact ⟨_, by rw [m.encode_cons_of_not_isalpha cs hc, hr]; rfl⟩
    | true =>
      obtain ⟨y, hy, -⟩ := Enigma.substitute_isSome hw hc
      obtain ⟨r, hr⟩ := ih hw.after_one_letter
      exact ⟨_, by rw [m.encode_cons_of_isalpha cs hc, hy, Option.some_bind, hr]; rfl⟩

/-- Reciprocity on one machine state: encoding the output again from the same state gives the
upper-cased text back, and both runs leave the same machine. -/
theorem Enigma.encode_encode {m : Enigma} (hv : m.Valid) (s : List Int) :
    ∃ out, m.encode s = some (m.afterLetters (countLetters s), out) ∧
      m.encode out = some (m.afterLetters (countLetters s), upperLetters s) := by
  induction s generalizing m with
  | nil => exact ⟨[], rfl, rfl⟩
  | cons c cs ih =>
    cases hc : isalpha c with
    | false =>
      obtain ⟨out, h1, h2⟩ := ih hv
      refine ⟨c :: out, ?_, ?_⟩
      · rw [m.encode_cons_of_not_isalpha cs hc, h1, countLetters_cons_of_not_isalpha cs hc]; rfl
      · rw [m.encode_cons_of_not_isalpha out hc, h2, countLetters_cons_of_not_isalpha cs hc]
        simp [upperLetters, hc]
    | true =>
      obtain ⟨y, hy, hyu⟩ := Enigma.substitute_isSome hv.wellFormed hc
      have hback := Enigma.substitute_substitute hv hc hy
      obtain ⟨out, h1, h2⟩ := ih hv.valid_after_one_letter
      rw [Enigma.afterLetters_succ] at h1 h2
      refine ⟨y :: out, ?_, ?_⟩
      · rw [m.encode_cons_of_isalpha cs hc, hy, Option.some_bind, h1,
          countLetters_cons_of_isalpha cs hc]; rfl
      · rw [m.encode_cons_of_isalpha out (isalpha_of_isUpperLetter hyu), hback, Option.some_bind,
          h2, countLetters_cons_of_isalpha cs hc]
        simp [upperLetters, hc]

/-! ## Construction -/

theorem Enigma.initPositions_forall (P : Rotor → Prop)
    (hP : ∀ (r : Rotor) (k : Int), isalpha k = true → P r → P (r.init_position (toupper k)))
    {keys : List Int} {rotors : List Rotor} (hlen : keys.length = rotors.length)
    (hk : ∀ k ∈ keys, isalpha k = true) (hr : ∀ r ∈ rotors, P r) :
    ∀ r ∈ Enigma.initPositions keys rotors, P r := by
  induction keys generalizing rotors with
  | nil =>
    cases rotors with
    | nil => intro r h; simp [Enigma.initPositions] at h
    | cons a rs => simp at hlen
  | cons k ks ih =>
    cases rotors with
    | nil => simp at hlen
    | cons a rs =>
      intro r h
      simp only [Enigma.initPositions, List.mem_cons] at h
      rcases h with e | e
      · rw [e]
        exact hP a k (hk k (List.mem_cons_self k ks)) (hr a (List.mem_cons_self a rs))
      · exact ih (by simpa using hlen) (fun q hq => hk q (List.mem_cons_of_mem k hq))
          (fun q hq => hr q (List.mem_cons_of_mem a hq)) r e

theorem Rotor.init_position_positionInRange (r : Rotor) {k : Int} (hk : isalpha k = true) :
    (r.init_position (toupper k)).PositionInRange := by
  have := isUpperLetter_toupper hk
  unfold isUpperLetter at this
  unfold Rotor.PositionInRange Rotor.init_position
  simp only
  omega

theorem Enigma.initPositions_positionInRange {keys : List Int} {rotors : List Rotor}
    (hlen : keys.length = rotors.length) (hk : ∀ k ∈ keys, isalpha k = true) :
    ∀ r ∈ Enigma.initPositions keys rotors, r.PositionInRange := by
  induction keys generalizing rotors with
  | nil =>
    cases rotors with
    | nil => intro r h; simp [Enigma.initPositions] at h
    | cons a rs => simp at hlen
  | cons k ks ih =>
    cases rotors with
    | nil => simp at hlen
    | cons a rs =>
      intro r h
      simp only [Enigma.initPositions, List.mem_cons] at h
      rcases h with e | e
      · rw [e]
        exact a.init_position_positionInRange (hk k (List.mem_cons_self k ks))
      · exact ih (by simpa using hlen) (fun q hq => hk q (List.mem_cons_of_mem k hq)) r e

theorem Enigma.create_eq_ok {keys : List Int} {rotors : List Rotor} (reflector : Reflector)
    (plugboard : Plugboard) (hne : rotors ≠ []) (hlen : keys.length = rotors.length) :
    Enigma.create keys rotors reflector plugboard = Except.ok
      { rotors := Enigma.initPositions keys rotors, reflector := reflector,
        plugboard := plugboard } := by
  unfold Enigma.create
  rw [if_neg (by simpa using hne), if_neg (by simpa using hlen)]

theorem upperLetters_of_all_isalpha {s : List Int} (h : ∀ c ∈ s, isalpha c = true) :
    upperLetters s = s.map toupper := by
  unfold upperLetters
  apply List.map_congr_left
  intro c hc
  simp [h c hc]

/-! ## The claims -/

/-- C1. Reciprocity round trip: for a valid configuration (at least one rotor, every rotor's
`rotor_forward` a bijection of the letters with `rotor_backward` its inverse, reflector and
plugboard involutions, a key of letters as long as the rotor list) and every ASCII text `S`,
the constructor builds machine `A` and its identically configured copy `B`, `A.encode S`
returns a text `C`, and `B.encode C` returns `S` with every letter upper-cased and every other
character unchanged; for an alphabetic-only `S` that is `S` upper-cased. -/
theorem reciprocity_round_trip (keys : List Int) (rotors : List Rotor) (reflector : Reflector)
    (plugboard : Plugboard) (S : List Int)
    (hne : rotors ≠ [])
    (hrot : ∀ r ∈ rotors, r.TablesValid)
    (hrefl : InvolutionTable reflector.reflector)
    (hplug : InvolutionTable plugboard.plugboard)
    (hkey : ∀ k ∈ keys, isalpha k = true)
    (hlen : keys.length = rotors.length)
    (_hS : ∀ c ∈ S, isAscii c) :
    ∃ A B : Enigma,
      Enigma.create keys rotors reflector plugboard = Except.ok A ∧
      Enigma.create keys rotors reflector plugboard = Except.ok B ∧
      ∃ (A1 B1 : Enigma) (C : List Int),
        A.encode S = some (A1, C) ∧ B.encode C = some (B1, upperLetters S) ∧
        ((∀ c ∈ S, isalpha c = true) → upperLetters S = S.map toupper) := by
  have hc := Enigma.create_eq_ok reflector plugboard hne hlen
  have hv : (Enigma.mk (Enigma.initPositions keys rotors) reflector plugboard).Valid := by
    refine ⟨?_, hrefl, hplug⟩
    have ht := Enigma.initPositions_forall (fun r => r.TablesValid)
      (fun r k _ h => h) hlen hkey hrot
    have hp := Enigma.initPositions_positionInRange hlen hkey
    exact fun r hr => ⟨ht r hr, hp r hr⟩
  obtain ⟨C, h1, h2⟩ := Enigma.encode_encode hv S
  exact ⟨_, _, hc, hc, _, _, C, h1, h2, upperLetters_of_all_isalpha⟩

/-- Witness of C1: two scrambled rotors and an identity rotor, the paired reflector, three
plugboard cables, key `CtR`, text `Hello, Enigma!`. -/
theorem reciprocity_round_trip_witness :
    ∃ A B : Enigma,
      Enigma.create (codes "CtR") [scrambledRotorA, scrambledRotorB, identityRotor]
        pairedReflector cabledPlugboard = Except.ok A ∧
      Enigma.create (codes "CtR") [scrambledRotorA, scrambledRotorB, identityRotor]
        pairedReflector cabledPlugboard = Except.ok B ∧
      ∃ (A1 B1 : Enigma) (C : List Int),
        A.encode (codes "Hello, Enigma!") = some (A1, C) ∧
        B.encode C = some (B1, upperLetters (codes "Hello, Enigma!")) ∧
        ((∀ c ∈ codes "Hello, Enigma!", isalpha c = true) →
          upperLetters (codes "Hello, Enigma!") = (codes "Hello, Enigma!").map toupper) :=
  reciprocity_round_trip (codes "CtR") [scrambledRotorA, scrambledRotorB, identityRotor]
    pairedReflector cabledPlugboard (codes "Hello, Enigma!")
    (by decide) (by decide) (by decide) (by decide) (by decide) (by decide) (by decide)

/-! ## The code against the reference pipeline -/

theorem Reference.lookup_eq {t : List Int} {i y : Int} (h : arrayAt t i = some y) :
    y = 65 + Reference.lookup t i := by
  obtain ⟨-, -, hg, -⟩ := arrayAt_eq_some h
  unfold Reference.lookup
  rw [List.getD_eq_getElem?_getD, hg]
  simp

theorem Reference.encode_forward_eq_F {r : Rotor} (ht : r.TablesInRange) (hp : r.PositionInRange)
    {x : Int} (hx : isUpperLetter x) :
    r.encode_forward x = some (65 + Reference.F r.rotor_forward r.position (x - 65)) ∧
      isUpperLetter (65 + Reference.F r.rotor_forward r.position (x - 65)) := by
  obtain ⟨y, hy, hu⟩ := Rotor.encode_forward_isSome ht hp hx
  have h2 := hy
  rw [r.encode_forward_eq hp hx] at h2
  have e := Reference.lookup_eq h2
  unfold Reference.F
  rw [← e]
  exact ⟨hy, hu⟩

theorem Reference.encode_backward_eq_B {r : Rotor} (ht : r.TablesInRange) (hp : r.PositionInRange)
    {y : Int} (hy : isUpperLetter y) :
    r.encode_backward y = some (65 + Reference.B r.rotor_backward r.position (y - 65)) ∧
      isUpperLetter (65 + Reference.B r.rotor_backward r.position (y - 65)) := by
  have hy2 := hy
  unfold isUpperLetter at hy2
  obtain ⟨i, hi, hm⟩ := arrayAt_isSome ht.2.1 (i := y - 65) (by omega) (by omega)
  have hr := ht.2.2.2 i hm
  obtain ⟨-, -, hg, -⟩ := arrayAt_eq_some hi
  have e : Reference.B r.rotor_backward r.position (y - 65) = (26 + i - r.position) % 26 := by
    unfold Reference.B
    rw [List.getD_eq_getElem?_getD, hg]
    simp
  rw [e]
  refine ⟨r.encode_backward_eq hp hi hr.1, ?_⟩
  unfold isUpperLetter
  omega

theorem Reference.forwardPass_eq {rs : List Rotor}
    (h : ∀ r ∈ rs, r.TablesInRange ∧ r.PositionInRange) {x : Int} (hx : isUpperLetter x) :
    Enigma.forwardPass rs x = some (65 + Reference.forward (rs.map Rotor.tables)
        (rs.map Rotor.position) (x - 65)) ∧
      isUpperLetter (65 + Reference.forward (rs.map Rotor.tables)
        (rs.map Rotor.position) (x - 65)) := by
  induction rs generalizing x with
  | nil =>
    have e : 65 + (x - 65) = x := by omega
    simp only [List.map_nil, Reference.forward, Enigma.forwardPass, e]
    exact ⟨trivial, hx⟩
  | cons r rs ih =>
    have hr := h r (List.mem_cons_self r rs)
    obtain ⟨h1, u1⟩ := Reference.encode_forward_eq_F hr.1 hr.2 hx
    have := ih (fun q hq => h q (List.mem_cons_of_mem r hq)) u1
    simp only [List.map_cons, Reference.forward, Enigma.forwardPass, h1, Option.some_bind,
      Rotor.tables]
    simpa [Rotor.tables] using this

theorem Reference.backwardPass_eq {rs : List Rotor}
    (h : ∀ r ∈ rs, r.TablesInRange ∧ r.PositionInRange) {y : Int} (hy : isUpperLetter y) :
    Enigma.backwardPass rs y = some (65 + Reference.backward (rs.map Rotor.tables)
        (rs.map Rotor.position) (y - 65)) ∧
      isUpperLetter (65 + Reference.backward (rs.map Rotor.tables)
        (rs.map Rotor.position) (y - 65)) := by
  induction rs with
  | nil =>
    have e : 65 + (y - 65) = y := by omega
    simp only [List.map_nil, Reference.backward, Enigma.backwardPass, e]
    exact ⟨trivial, hy⟩
  | cons r rs ih =>
    have hr := h r (List.mem_cons_self r rs)
    obtain ⟨h1, u1⟩ := ih (fun q hq => h q (List.mem_cons_of_mem r hq))
    obtain ⟨h2, u2⟩ := Reference.encode_backward_eq_B hr.1 hr.2 u1
    simp only [List.map_cons, Reference.backward, Enigma.backwardPass, h1, Option.some_bind,
      Rotor.tables]
    simpa [Rotor.tables] using And.intro h2 u2

theorem Reference.letter_lookup_eq {t : List Int} (ht : LetterTable t) {x : Int}
    (hx : isUpperLetter x) :
    arrayAt t (x - 65) = some (65 + Reference.lookup t (x - 65)) ∧
      isUpperLetter (65 + Reference.lookup t (x - 65)) := by
  obtain ⟨y, hy, hu⟩ := ht.lookup_isSome hx
  rw [← Reference.lookup_eq hy]
  exact ⟨hy, hu⟩

theorem Reference.substitute_eq {m : Enigma} (hw : m.WellFormed) {c : Int}
    (hc : isalpha c = true) :
    m.substitute c = some (65 + Reference.pipeline m.plugboard.plugboard m.rotorTables
      m.reflector.reflector m.positions (toupper c - 65)) := by
  obtain ⟨h1, u1⟩ := Reference.letter_lookup_eq hw.2.2 (isUpperLetter_toupper hc)
  obtain ⟨h2, u2⟩ := Reference.forwardPass_eq hw.1 u1
  obtain ⟨h3, u3⟩ := Reference.letter_lookup_eq hw.2.1 u2
  obtain ⟨h4, u4⟩ := Reference.backwardPass_eq hw.1 u3
  obtain ⟨h5, -⟩ := Reference.letter_lookup_eq hw.2.2 u4
  simp only [Enigma.substitute, Plugboard.plugboard_encode, Reflector.reflect, h1, h2, h3, h4,
    h5, Option.some_bind]
  simp [Reference.pipeline, Enigma.rotorTables, Enigma.positions]

theorem Enigma.turnRotors_tables (rs : List Rotor) :
    (Enigma.turnRotors rs).map Rotor.tables = rs.map Rotor.tables := by
  induction rs with
  | nil => rfl
  | cons r rs ih =>
    unfold Enigma.turnRotors
    split
    · simp [ih, Rotor.tables, Rotor.turn_rotor]
    · simp [Rotor.tables, Rotor.turn_rotor]

theorem Reference.turnRotors_positions {rs : List Rotor} (h : ∀ r ∈ rs, r.PositionInRange) :
    (Enigma.turnRotors rs).map Rotor.position = Reference.cascade (rs.map Rotor.position) := by
  induction rs with
  | nil => rfl
  | cons r rs ih =>
    have hr := h r (List.mem_cons_self r rs)
    unfold Rotor.PositionInRange at hr
    have e : (r.position + 1).tmod 26 = (r.position + 1) % 26 := tmod26_of_nonneg (by omega)
    have ih2 := ih (fun q hq => h q (List.mem_cons_of_mem r hq))
    unfold Enigma.turnRotors
    simp only [Rotor.turn_rotor, e, beq_iff_eq, List.map_cons, Reference.cascade]
    split
    · simp [ih2]
    · simp

theorem Enigma.afterLetters_one_rotorTables (m : Enigma) :
    (m.afterLetters 1).rotorTables = m.rotorTables := by
  simp [Enigma.afterLetters, Enigma.rotorTables, Enigma.turnRotors_tables]

theorem Reference.afterLetters_one_positions {m : Enigma} (hw : m.WellFormed) :
    (m.afterLetters 1).positions = Reference.cascade m.positions := by
  simp only [Enigma.afterLetters, Enigma.positions, Function.iterate_one]
  exact Reference.turnRotors_positions (fun r hr => (hw.1 r hr).2)

theorem Reference.encode_letter_eq {m : Enigma} (hw : m.WellFormed) {s : List Int}
    {r : Enigma × List Int} (h : m.encode s = some r) (i : Nat) (c : Int)
    (hi : s[i]? = some c) (hc : isalpha c = true) :
    r.2[i]? = some (65 + Reference.pipeline m.plugboard.plugboard m.rotorTables
      m.reflector.reflector (Reference.cascade^[countLetters (s.take i)] m.positions)
      (toupper c - 65)) := by
  induction s generalizing m r i with
  | nil => simp at hi
  | cons c0 cs ih =>
    cases hc0 : isalpha c0 with
    | false =>
      rw [m.encode_cons_of_not_isalpha cs hc0] at h
      cases h2 : m.encode cs with
      | none => rw [h2] at h; cases h
      | some r2 =>
        rw [h2] at h
        simp only [Option.map_some', Option.some.injEq] at h
        subst h
        cases i with
        | zero =>
          simp only [List.getElem?_cons_zero, Option.some.injEq] at hi
          rw [hi, hc] at hc0
          cases hc0
        | succ i =>
          simp only [List.getElem?_cons_succ] at hi
          simp only [List.getElem?_cons_succ, List.take_succ_cons,
            countLetters_cons_of_not_isalpha _ hc0]
          exact ih hw h2 i hi
    | true =>
      rw [m.encode_cons_of_isalpha cs hc0, Reference.substitute_eq hw hc0, Option.some_bind] at h
      cases h2 : (m.afterLetters 1).encode cs with
      | none => rw [h2] at h; cases h
      | some r2 =>
        rw [h2] at h
        simp only [Option.map_some', Option.some.injEq] at h
        subst h
        cases i with
        | zero =>
          simp only [List.getElem?_cons_zero, Option.some.injEq] at hi
          subst hi
          simp [countLetters]
        | succ i =>
          simp only [List.getElem?_cons_succ] at hi
          have := ih hw.after_one_letter h2 i hi
          simp only [List.getElem?_cons_succ, List.take_succ_cons,
            countLetters_cons_of_isalpha _ hc0, Function.iterate_succ_apply]
          rw [this, Enigma.afterLetters_one_rotorTables, Reference.afterLetters_one_positions hw]
          rfl

/-- C2. `Enigma::encode` equals the reference pipeline: on a machine whose tables are in range
and whose rotor positions are in `0..25`, `encode` returns a text of the same length, and at
the index of each letter `c` of the input the output is
`'A' + P(B_1(...B_k(U(F_k(...F_1(P(upper(c) - 'A')))))))`, computed with the position vector
reached from the initial one by as many stepping cascades as there are letters before that
index. -/
theorem encode_eq_reference_pipeline (m : Enigma) (S : List Int) (hw : m.WellFormed)
    (_hS : ∀ c ∈ S, isAscii c) :
    ∃ r, m.encode S = some r ∧ r.2.length = S.length ∧
      ∀ (i : Nat) (c : Int), S[i]? = some c → isalpha c = true →
        r.2[i]? = some (65 + Reference.pipeline m.plugboard.plugboard m.rotorTables
          m.reflector.reflector (Reference.cascade^[countLetters (S.take i)] m.positions)
          (toupper c - 65)) := by
  obtain ⟨r, hr⟩ := Enigma.encode_isSome hw S
  exact ⟨r, hr, (Enigma.encode_eq_some hr).2,
    fun i c hi hc => Reference.encode_letter_eq hw hr i c hi hc⟩

/-- Witness of C2: the machine about to carry, on the text `ab-C`. -/
theorem encode_eq_reference_pipeline_witness :
    ∃ r, carryMachine.encode (codes "ab-C") = some r ∧
      r.2.length = (codes "ab-C").length ∧
      ∀ (i : Nat) (c : Int), (codes "ab-C")[i]? = some c → isalpha c = true →
        r.2[i]? = some (65 + Reference.pipeline carryMachine.plugboard.plugboard
          carryMachine.rotorTables carryMachine.reflector.reflector
          (Reference.cascade^[countLetters ((codes "ab-C").take i)] carryMachine.positions)
          (toupper c - 65)) :=
  encode_eq_reference_pipeline carryMachine (codes "ab-C") (by decide) (by decide)

/-! ## Characters that are not letters -/

theorem Enigma.encode_nonletter_eq {m : Enigma} {s : List Int} {r : Enigma × List Int}
    (h : m.encode s = some r) (i : Nat) (c : Int) (hi : s[i]? = some c)
    (hc : isalpha c = false) : r.2[i]? = some c := by
  induction s generalizing m r i with
  | nil => simp at hi
  | cons c0 cs ih =>
    cases hc0 : isalpha c0 with
    | false =>
      rw [m.encode_cons_of_not_isalpha cs hc0] at h
      cases h2 : m.encode cs with
      | none => rw [h2] at h; cases h
      | some r2 =>
        rw [h2] at h
        simp only [Option.map_some', Option.some.injEq] at h
        subst h
        cases i with
        | zero => simpa using hi
        | succ i =>
          simp only [List.getElem?_cons_succ] at hi ⊢
          exact ih h2 i hi
    | true =>
      rw [m.encode_cons_of_isalpha cs hc0] at h
      cases h1 : m.substitute c0 with
      | none => rw [h1] at h; cases h
      | some y =>
        rw [h1, Option.some_bind] at h
        cases h2 : (m.afterLetters 1).encode cs with
        | none => rw [h2] at h; cases h
        | some r2 =>
          rw [h2] at h
          simp only [Option.map_some', Option.some.injEq] at h
          subst h
          cases i with
          | zero =>
            simp only [List.getElem?_cons_zero, Option.some.injEq] at hi
            rw [hi, hc] at hc0
            cases hc0
          | succ i =>
            simp only [List.getElem?_cons_succ] at hi ⊢
            exact ih h2 i hi

theorem Enigma.encode_of_no_letter (m : Enigma) {s : List Int}
    (h : ∀ c ∈ s, isalpha c = false) : m.encode s = some (m, s) := by
  induction s with
  | nil => rfl
  | cons c cs ih =>
    rw [m.encode_cons_of_not_isalpha cs (h c (List.mem_cons_self c cs)),
      ih (fun q hq => h q (List.mem_cons_of_mem c hq))]
    rfl

theorem Enigma.encode_filter_isalpha (m : Enigma) (s : List Int) :
    (m.encode s).map (fun r => (r.1, lettersOut s r.2)) = m.encode (s.filter isalpha) := by
  induction s generalizing m with
  | nil => rfl
  | cons c cs ih =>
    cases hc : isalpha c with
    | false =>
      rw [m.encode_cons_of_not_isalpha cs hc, List.filter_cons_of_neg (by simp [hc]), ← ih m]
      cases m.encode cs with
      | none => rfl
      | some r => simp [lettersOut, hc]
    | true =>
      rw [m.encode_cons_of_isalpha cs hc, List.filter_cons_of_pos hc,
        m.encode_cons_of_isalpha _ hc]
      cases m.substitute c with
      | none => rfl
      | some y =>
        rw [Option.some_bind, Option.some_bind, ← ih (m.afterLetters 1)]
        cases (m.afterLetters 1).encode cs with
        | none => rfl
        | some r => simp [lettersOut, hc]

/-- C3. Whenever `Enigma::encode` returns, on any machine and any ASCII text, the text it
leaves has the length of the input and every non-alphabetic character of the input stands
unchanged at its index; and on every machine whose tables and positions are in range it does
return. -/
theorem encode_keeps_length_and_nonletters (m : Enigma) (S : List Int)
    (_hS : ∀ c ∈ S, isAscii c) :
    (∀ r, m.encode S = some r →
      r.2.length = S.length ∧
      ∀ (i : Nat) (c : Int), S[i]? = some c → isalpha c = false → r.2[i]? = some c) ∧
    (m.WellFormed → ∃ r, m.encode S = some r) :=
  ⟨fun _ hr => ⟨(Enigma.encode_eq_some hr).2, fun i c hi hc => Enigma.encode_nonletter_eq hr i c hi hc⟩,
    fun hw => Enigma.encode_isSome hw S⟩

/-- Witness of C3: the machine about to carry, on the text `a, b!`. -/
theorem encode_keeps_length_and_nonletters_witness :
    (∀ r, carryMachine.encode (codes "a, b!") = some r →
      r.2.length = (codes "a, b!").length ∧
      ∀ (i : Nat) (c : Int), (codes "a, b!")[i]? = some c → isalpha c = false →
        r.2[i]? = some c) ∧
    (carryMachine.WellFormed → ∃ r, carryMachine.encode (codes "a, b!") = some r) :=
  encode_keeps_length_and_nonletters carryMachine (codes "a, b!") (by decide)

/-- C4. Non-alphabetic characters do not affect the rotor state: for every machine and every
ASCII text `T`, the machine left by `encode T` (so every rotor position) and the output
characters at the letters of `T` are those of encoding `T` with all non-letters deleted, one
call returning exactly when the other does; on a text without any letter `encode` returns the
machine and the text unchanged; and on a machine in range `encode T` does return. -/
theorem nonletters_do_not_affect_rotors (m : Enigma) (T : List Int)
    (_hT : ∀ c ∈ T, isAscii c) :
    (m.encode T).map (fun r => (r.1, lettersOut T r.2)) = m.encode (T.filter isalpha) ∧
    (∀ r, m.encode T = some r → ∃ r2, m.encode (T.filter isalpha) = some r2 ∧
      r.1.positions = r2.1.positions ∧ lettersOut T r.2 = r2.2) ∧
    ((∀ c ∈ T, isalpha c = false) → m.encode T = some (m, T)) ∧
    (m.WellFormed → ∃ r, m.encode T = some r) := by
  refine ⟨m.encode_filter_isalpha T, ?_, m.encode_of_no_letter, fun hw => Enigma.encode_isSome hw T⟩
  intro r hr
  have h := m.encode_filter_isalpha T
  rw [hr] at h
  exact ⟨_, h.symm, rfl, rfl⟩

/-- Witness of C4: the machine about to carry, on the text `a, b!`. -/
theorem nonletters_do_not_affect_rotors_witness :
    (carryMachine.encode (codes "a, b!")).map (fun r => (r.1, lettersOut (codes "a, b!") r.2))
      = carryMachine.encode ((codes "a, b!").filter isalpha) ∧
    (∀ r, carryMachine.encode (codes "a, b!") = some r →
      ∃ r2, carryMachine.encode ((codes "a, b!").filter isalpha) = some r2 ∧
        r.1.positions = r2.1.positions ∧ lettersOut (codes "a, b!") r.2 = r2.2) ∧
    ((∀ c ∈ codes "a, b!", isalpha c = false) →
      carryMachine.encode (codes "a, b!") = some (carryMachine, codes "a, b!")) ∧
    (carryMachine.WellFormed → ∃ r, carryMachine.encode (codes "a, b!") = some r) :=
  nonletters_do_not_affect_rotors carryMachine (codes "a, b!") (by decide)

/-- C5. Construction fails exactly when the rotor sequence is empty or the key length differs
from the rotor count: it ends in `EmptyRotorSet` exactly when there is no rotor (whatever the
key), in `KeyLengthMismatch` exactly when there is a rotor and the key length differs from the
rotor count (as for key `AB` with three rotors), and it yields a machine exactly in every
other case; a failure carries no machine. -/
theorem construction_fails_iff (keys : List Int) (rotors : List Rotor) (reflector : Reflector)
    (plugboard : Plugboard) :
    (Enigma.create keys rotors reflector plugboard
        = Except.error ConfigurationError.EmptyRotorSet ↔ rotors = []) ∧
    (Enigma.create keys rotors reflector plugboard
        = Except.error ConfigurationError.KeyLengthMismatch ↔
      rotors ≠ [] ∧ keys.length ≠ rotors.length) ∧
    ((∃ m, Enigma.create keys rotors reflector plugboard = Except.ok m) ↔
      ¬ (rotors = [] ∨ keys.length ≠ rotors.length)) ∧
    ((∃ e, Enigma.create keys rotors reflector plugboard = Except.error e) ↔
      (rotors = [] ∨ keys.length ≠ rotors.length)) ∧
    ((Enigma.create keys rotors reflector plugboard).toOption = none ↔
      (rotors = [] ∨ keys.length ≠ rotors.length)) ∧
    Enigma.create keys [] reflector plugboard
      = Except.error ConfigurationError.EmptyRotorSet ∧
    Enigma.create (codes "AB") [identityRotor, identityRotor, identityRotor] reflector plugboard
      = Except.error ConfigurationError.KeyLengthMismatch := by
  refine ⟨?_, ?_, ?_, ?_, ?_, rfl, rfl⟩
  all_goals
    unfold Enigma.create
    by_cases h1 : rotors.length = 0
    · have h1' : rotors = [] := List.length_eq_zero.mp h1
      simp [h1, h1', Except.toOption]
    · have h1' : rotors ≠ [] := fun h => h1 (by simp [h])
      by_cases h2 : keys.length = rotors.length
      · simp [h1, h1', h2, Except.toOption]
      · simp [h1, h1', h2, Except.toOption]

/-- C6. For a rotor whose `rotor_forward` is a bijection of the letters with `rotor_backward`
its inverse, a position in `0..25` and an upper-case letter `x`: `encode_forward x` is an
upper-case letter that `encode_backward` sends back to `x`, and `encode_backward x` is an
upper-case letter that `encode_forward` sends back to `x`, the position being the same in
both calls. -/
theorem rotor_passes_mutually_inverse (r : Rotor) (x : Int) (hv : r.TablesValid)
    (hp : r.PositionInRange) (hx : isUpperLetter x) :
    (∃ y, r.encode_forward x = some y ∧ isUpperLetter y ∧ r.encode_backward y = some x) ∧
    (∃ z, r.encode_backward x = some z ∧ isUpperLetter z ∧ r.encode_forward z = some x) := by
  obtain ⟨y, hy, hyu⟩ := Rotor.encode_forward_isSome hv.tablesInRange hp hx
  obtain ⟨z, hz, hzu⟩ := Rotor.encode_backward_isSome hv.tablesInRange hp hx
  exact ⟨⟨y, hy, hyu, Rotor.backward_forward hv hp hx hy⟩,
    ⟨z, hz, hzu, Rotor.forward_backward hv hp hx hz⟩⟩

/-- Witness of C6: the first scrambled rotor at position 7 on the letter `Q`. -/
theorem rotor_passes_mutually_inverse_witness :
    (∃ y, (Rotor.mk 7 scrambledRotorA.rotor_forward scrambledRotorA.rotor_backward).encode_forward 81
        = some y ∧ isUpperLetter y ∧
      (Rotor.mk 7 scrambledRotorA.rotor_forward scrambledRotorA.rotor_backward).encode_backward y
        = some 81) ∧
    (∃ z, (Rotor.mk 7 scrambledRotorA.rotor_forward scrambledRotorA.rotor_backward).encode_backward 81
        = some z ∧ isUpperLetter z ∧
      (Rotor.mk 7 scrambledRotorA.rotor_forward scrambledRotorA.rotor_backward).encode_forward z
        = some 81) :=
  rotor_passes_mutually_inverse
    (Rotor.mk 7 scrambledRotorA.rotor_forward scrambledRotorA.rotor_backward) 81
    (by decide) (by decide) (by decide)

/-! ## Positions after a number of letters -/

theorem Enigma.afterLetters_positions {m : Enigma} (h : ∀ r ∈ m.rotors, r.PositionInRange)
    (n : Nat) : (m.afterLetters n).positions = Reference.cascade^[n] m.positions := by
  induction n generalizing m with
  | zero => rfl
  | succ n ih =>
    have h1 : ∀ r ∈ (m.afterLetters 1).rotors, r.PositionInRange :=
      Enigma.turnRotors_forall (fun r => r.PositionInRange)
        (fun r hr => Rotor.turn_rotor_positionInRange hr) h
    have e : (m.afterLetters 1).positions = Reference.cascade m.positions := by
      simp only [Enigma.afterLetters, Enigma.positions, Function.iterate_one]
      exact Reference.turnRotors_positions h
    rw [← Enigma.afterLetters_succ, ih h1, e, Function.iterate_succ_apply]

theorem Reference.cascade_iterate_single {p : Int} (h0 : 0 ≤ p) (h1 : p < 26) (n : Nat) :
    Reference.cascade^[n] [p] = [(p + (n : Int)) % 26] := by
  induction n with
  | zero =>
    have e : (p + ((0 : Nat) : Int)) % 26 = p := by omega
    rw [e]; rfl
  | succ n ih =>
    rw [Function.iterate_succ_apply', ih]
    have e : ((p + (n : Int)) % 26 + 1) % 26 = (p + ((n + 1 : Nat) : Int)) % 26 := by
      push_cast; omega
    simp only [Reference.cascade, e, ite_self]

theorem Reference.cascade_iterate_pair {p0 p1 : Int} (h0 : 0 ≤ p0) (h1 : p0 < 26)
    (g0 : 0 ≤ p1) (g1 : p1 < 26) (n : Nat) :
    Reference.cascade^[n] [p0, p1]
      = [(p0 + (n : Int)) % 26, (p1 + (p0 + (n : Int)) / 26) % 26] := by
  induction n with
  | zero =>
    have e : (p0 + ((0 : Nat) : Int)) % 26 = p0 := by omega
    have e2 : (p1 + (p0 + ((0 : Nat) : Int)) / 26) % 26 = p1 := by omega
    rw [e, e2]; rfl
  | succ n ih =>
    rw [Function.iterate_succ_apply', ih]
    have e : ((p0 + (n : Int)) % 26 + 1) % 26 = (p0 + ((n + 1 : Nat) : Int)) % 26 := by
      push_cast; omega
    simp only [Reference.cascade, e, ite_self]
    by_cases hw : (p0 + ((n + 1 : Nat) : Int)) % 26 = 0
    · rw [if_pos hw]
      congr 2
      push_cast at hw ⊢
      omega
    · rw [if_neg hw]
      congr 2
      push_cast at hw ⊢
      omega

/-- C7. Full-cycle property: for a single-rotor machine whose rotor is at a position in
`0..25` and a text with exactly 26 letters (other characters interleaved at will), the rotor
position left by `encode` is the initial one, and `encode` does return when the tables are in
range. -/
theorem single_rotor_full_cycle (r : Rotor) (reflector : Reflector) (plugboard : Plugboard)
    (S : List Int) (hp : r.PositionInRange) (_hS : ∀ c ∈ S, isAscii c)
    (h26 : countLetters S = 26) :
    (∀ res, (Enigma.mk [r] reflector plugboard).encode S = some res →
      res.1.positions = [r.position]) ∧
    ((Enigma.mk [r] reflector plugboard).WellFormed →
      ∃ res, (Enigma.mk [r] reflector plugboard).encode S = some res) := by
  refine ⟨?_, fun hw => Enigma.encode_isSome hw S⟩
  intro res hres
  have hr : ∀ q ∈ (Enigma.mk [r] reflector plugboard).rotors, q.PositionInRange := by
    intro q hq
    simp only [List.mem_singleton] at hq
    rw [hq]; exact hp
  unfold Rotor.PositionInRange at hp
  rw [(Enigma.encode_eq_some hres).1, Enigma.afterLetters_positions hr, h26]
  simp only [Enigma.positions, List.map_cons, List.map_nil]
  rw [Reference.cascade_iterate_single hp.1 hp.2]
  congr 1
  push_cast
  omega

/-- Witness of C7: one scrambled rotor at position 11, 26 letters with a blank and a comma. -/
theorem single_rotor_full_cycle_witness :
    (∀ res, (Enigma.mk [{ scrambledRotorA with position := 11 }] pairedReflector
        cabledPlugboard).encode (codes "The quick brown fox, jumps over a") = some res →
      res.1.positions = [11]) ∧
    ((Enigma.mk [{ scrambledRotorA with position := 11 }] pairedReflector
        cabledPlugboard).WellFormed →
      ∃ res, (Enigma.mk [{ scrambledRotorA with position := 11 }] pairedReflector
        cabledPlugboard).encode (codes "The quick brown fox, jumps over a") = some res) :=
  single_rotor_full_cycle { scrambledRotorA with position := 11 } pairedReflector
    cabledPlugboard (codes "The quick brown fox, jumps over a") (by decide) (by decide)
    (by decide)

theorem Enigma.two_rotor_positions_eq {r0 r1 : Rotor} (reflector : Reflector)
    (plugboard : Plugboard) (hp0 : r0.PositionInRange) (hp1 : r1.PositionInRange)
    {s : List Int} {res : Enigma × List Int}
    (h : (Enigma.mk [r0, r1] reflector plugboard).encode s = some res) :
    res.1.positions = [(r0.position + (countLetters s : Int)) % 26,
      (r1.position + (r0.position + (countLetters s : Int)) / 26) % 26] := by
  have hr : ∀ q ∈ (Enigma.mk [r0, r1] reflector plugboard).rotors, q.PositionInRange := by
    intro q hq
    simp only [List.mem_cons, List.mem_singleton, List.not_mem_nil, or_false] at hq
    rcases hq with e | e <;> rw [e] <;> assumption
  rw [(Enigma.encode_eq_some h).1, Enigma.afterLetters_positions hr]
  simp only [Enigma.positions, List.map_cons, List.map_nil]
  exact Reference.cascade_iterate_pair hp0.1 hp0.2 hp1.1 hp1.2 _

/-- C8. For a two-rotor machine with initial positions `(p0, p1)` in `0..25` and a text `S`
with `n` letters, the positions left by `encode` are
`((p0 + n) mod 26, (p1 + (p0 + n) div 26) mod 26)`. Hence, for a text `T1` with one letter
more, the second rotor has moved (by one step) exactly when the first rotor stood at 25 and
wrapped to 0; and for a text `T26` with 26 letters more, the first rotor is back and the second
has moved by exactly one step. On a machine with tables in range the three calls return. -/
theorem two_rotor_positions (r0 r1 : Rotor) (reflector : Reflector) (plugboard : Plugboard)
    (S T1 T26 : List Int) (hp0 : r0.PositionInRange) (hp1 : r1.PositionInRange)
    (_hS : ∀ c ∈ S, isAscii c) (_hT1 : ∀ c ∈ T1, isAscii c) (_hT26 : ∀ c ∈ T26, isAscii c)
    (h1 : countLetters T1 = countLetters S + 1)
    (h26 : countLetters T26 = countLetters S + 26) :
    (∀ res, (Enigma.mk [r0, r1] reflector plugboard).encode S = some res →
      res.1.positions = [(r0.position + (countLetters S : Int)) % 26,
        (r1.position + (r0.position + (countLetters S : Int)) / 26) % 26]) ∧
    (∀ res res1, (Enigma.mk [r0, r1] reflector plugboard).encode S = some res →
      (Enigma.mk [r0, r1] reflector plugboard).encode T1 = some res1 →
      ∃ a b, res.1.positions = [a, b] ∧
        res1.1.positions = [(a + 1) % 26, if a = 25 then (b + 1) % 26 else b]) ∧
    (∀ res res26, (Enigma.mk [r0, r1] reflector plugboard).encode S = some res →
      (Enigma.mk [r0, r1] reflector plugboard).encode T26 = some res26 →
      ∃ a b, res.1.positions = [a, b] ∧ res26.1.positions = [a, (b + 1) % 26]) ∧
    ((Enigma.mk [r0, r1] reflector plugboard).WellFormed →
      (∃ res, (Enigma.mk [r0, r1] reflector plugboard).encode S = some res) ∧
      (∃ res1, (Enigma.mk [r0, r1] reflector plugboard).encode T1 = some res1) ∧
      (∃ res26, (Enigma.mk [r0, r1] reflector plugboard).encode T26 = some res26)) := by
  have hp0' := hp0
  have hp1' := hp1
  unfold Rotor.PositionInRange at hp0' hp1'
  refine ⟨fun res h => Enigma.two_rotor_positions_eq reflector plugboard hp0 hp1 h, ?_, ?_,
    fun hw => ⟨Enigma.encode_isSome hw S, Enigma.encode_isSome hw T1,
      Enigma.encode_isSome hw T26⟩⟩
  · intro res res1 h hT
    refine ⟨_, _, Enigma.two_rotor_positions_eq reflector plugboard hp0 hp1 h, ?_⟩
    rw [Enigma.two_rotor_positions_eq reflector plugboard hp0 hp1 hT, h1]
    push_cast
    congr 1
    · omega
    · congr 1
      split <;> omega
  · intro res res26 h hT
    refine ⟨_, _, Enigma.two_rotor_positions_eq reflector plugboard hp0 hp1 h, ?_⟩
    rw [Enigma.two_rotor_positions_eq reflector plugboard hp0 hp1 hT, h26]
    push_cast
    congr 1
    · omega
    · congr 1
      omega

/-- Witness of C8: two scrambled rotors set to `Y` and `Z` (positions 24 and 25); the text
`a b`, the text `a b c` whose third letter makes the first rotor wrap, and a text with 26
letters more. -/
theorem two_rotor_positions_witness :
    (∀ res, (Enigma.mk [scrambledRotorA.init_position 89, scrambledRotorB.init_position 90]
        pairedReflector cabledPlugboard).encode (codes "a b") = some res →
      res.1.positions = [(24 + (countLetters (codes "a b") : Int)) % 26,
        (25 + (24 + (countLetters (codes "a b") : Int)) / 26) % 26]) ∧
    (∀ res res1, (Enigma.mk [scrambledRotorA.init_position 89, scrambledRotorB.init_position 90]
        pairedReflector cabledPlugboard).encode (codes "a b") = some res →
      (Enigma.mk [scrambledRotorA.init_position 89, scrambledRotorB.init_position 90]
        pairedReflector cabledPlugboard).encode (codes "a b c") = some res1 →
      ∃ a b, res.1.positions = [a, b] ∧
        res1.1.positions = [(a + 1) % 26, if a = 25 then (b + 1) % 26 else b]) ∧
    (∀ res res26, (Enigma.mk [scrambledRotorA.init_position 89, scrambledRotorB.init_position 90]
        pairedReflector cabledPlugboard).encode (codes "a b") = some res →
      (Enigma.mk [scrambledRotorA.init_position 89, scrambledRotorB.init_position 90]
        pairedReflector cabledPlugboard).encode
          (codes "a b, the quick brown fox jumps over a") = some res26 →
      ∃ a b, res.1.positions = [a, b] ∧ res26.1.positions = [a, (b + 1) % 26]) ∧
    ((Enigma.mk [scrambledRotorA.init_position 89, scrambledRotorB.init_position 90]
        pairedReflector cabledPlugboard).WellFormed →
      (∃ res, (Enigma.mk [scrambledRotorA.init_position 89, scrambledRotorB.init_position 90]
        pairedReflector cabledPlugboard).encode (codes "a b") = some res) ∧
      (∃ res1, (Enigma.mk [scrambledRotorA.init_position 89, scrambledRotorB.init_position 90]
        pairedReflector cabledPlugboard).encode (codes "a b c") = some res1) ∧
      (∃ res26, (Enigma.mk [scrambledRotorA.init_position 89, scrambledRotorB.init_position 90]
        pairedReflector cabledPlugboard).encode
          (codes "a b, the quick brown fox jumps over a") = some res26)) :=
  two_rotor_positions (scrambledRotorA.init_position 89) (scrambledRotorB.init_position 90)
    pairedReflector cabledPlugboard (codes "a b") (codes "a b c")
    (codes "a b, the quick brown fox jumps over a")
    (by decide) (by decide) (by decide) (by decide) (by decide) (by decide) (by decide)

/-- C9. The worked example: three rotors with identity tables, the reflector swapping adjacent
letters, the identity plugboard and key `AAA`. Construction succeeds with positions
`(0, 0, 0)`; `encode("A")` returns `"B"`, which is the reflector's image of `A`, and leaves the
positions `(1, 0, 0)`. -/
theorem worked_example_key_AAA :
    ∃ m res, exampleMachine = Except.ok m ∧ m.positions = [0, 0, 0] ∧
      m.encode (codes "A") = some res ∧ res.2 = codes "B" ∧
      adjacentReflector.reflect 65 = some 66 ∧ res.1.positions = [1, 0, 0] := by
  refine ⟨Enigma.mk [identityRotor, identityRotor, identityRotor] adjacentReflector
    identityPlugboard, (Enigma.mk [{ identityRotor with position := 1 }, identityRotor,
      identityRotor] adjacentReflector identityPlugboard, [66]), ?_, ?_, ?_, ?_, ?_, ?_⟩
  · rfl
  · decide
  · decide
  · decide
  · decide
  · decide

/-! ## Rotor::init -/

theorem allWritten_map_some (l : List Int) : allWritten (l.map some) = some l := by
  induction l with
  | nil => rfl
  | cons a l ih => simp [allWritten, ih]

theorem exists_map_some_of_written (l : List (Option Int))
    (h : ∀ j, j < l.length → ∃ v, l[j]? = some (some v)) : ∃ l2 : List Int, l = l2.map some := by
  induction l with
  | nil => exact ⟨[], rfl⟩
  | cons x xs ih =>
    obtain ⟨v, hv⟩ := h 0 (by simp)
    simp only [List.getElem?_cons_zero, Option.some.injEq] at hv
    obtain ⟨l2, hl2⟩ := ih (fun j hj => by
      obtain ⟨w, hw⟩ := h (j + 1) (by simpa using hj)
      exact ⟨w, by simpa using hw⟩)
    exact ⟨v :: l2, by simp [hv, hl2]⟩

/-- The state of the two tables after the first `n` iterations of the loop of `Rotor::init`. -/
theorem Rotor.initTables_firstIterations {all : List Int} (hlen : all.length = 26)
    (hup : ∀ a ∈ all, isUpperLetter a) (hnd : all.Nodup) (n : Nat) (hn : n ≤ 26) :
    ∃ st, (List.range n).foldlM (Rotor.initStep all)
        (List.replicate 26 none, List.replicate 26 none) = some st ∧
      st.1.length = 26 ∧ st.2.length = 26 ∧
      (∀ i, i < n → st.1[i]? = some (all[i]?)) ∧
      (∀ i a, i < n → all[i]? = some a → st.2[(a - 65).toNat]? = some (some (i : Int))) := by
  induction n with
  | zero =>
    refine ⟨_, rfl, by simp, by simp, ?_, ?_⟩
    · intro i hi; omega
    · intro i a hi; omega
  | succ n ih =>
    obtain ⟨st, hst, l1, l2, hf, hb⟩ := ih (by omega)
    have hlt : n < all.length := by omega
    have han : all[n]? = some all[n] := List.getElem?_eq_getElem hlt
    have hau := hup all[n] (List.getElem_mem hlt)
    unfold isUpperLetter at hau
    refine ⟨(st.1.set n (some all[n]), st.2.set (all[n] - 65).toNat (some (n : Int))),
      ?_, by simpa using l1, by simpa using l2, ?_, ?_⟩
    · rw [List.range_succ, List.foldlM_append, hst]
      simp only [Option.bind_eq_bind, Option.some_bind, List.foldlM_cons, List.foldlM_nil]
      unfold Rotor.initStep
      rw [han]
      simp only [Option.some_bind]
      rw [if_pos (by omega)]
      rfl
    · intro i hi
      by_cases e : i = n
      · subst e
        rw [List.getElem?_set_self (by omega), han]
      · rw [List.getElem?_set_ne (fun h => e h.symm)]
        exact hf i (by omega)
    · intro i a hi hia
      by_cases e : i = n
      · subst e
        rw [han] at hia
        injection hia with hia
        subst hia
        rw [List.getElem?_set_self (by omega)]
      · have hine : a ≠ all[n] := by
          intro heq
          have hi' : i < all.length := by omega
          have h1 : all[i] = a := by
            have := List.getElem?_eq_getElem hi'
            rw [hia] at this
            injection this with this
            exact this.symm
          have := (List.Nodup.getElem_inj_iff hnd).mp (h1.trans heq)
          exact e this
        have hau2 := hup a (List.getElem?_mem hia)
        unfold isUpperLetter at hau2
        rw [List.getElem?_set_ne (by omega)]
        exact hb i a (by omega) hia

theorem isUpperLetter_of_mem_identityLetters :
    ∀ a ∈ identityLetters, isUpperLetter a := by decide

theorem mem_identityLetters_of_lt : ∀ j : Nat, j < 26 → (65 + (j : Int)) ∈ identityLetters := by
  decide

theorem Rotor.init_eq_some {all : List Int} (hperm : all.Perm identityLetters) :
    ∃ bwd : List Int, Rotor.init all = some (Rotor.mk 0 all bwd) ∧ bwd.length = 26 ∧
      ∀ (i : Nat) (a : Int), i < 26 → all[i]? = some a →
        bwd[(a - 65).toNat]? = some (i : Int) := by
  have hlen : all.length = 26 := by rw [hperm.length_eq]; rfl
  have hup : ∀ a ∈ all, isUpperLetter a :=
    fun a ha => isUpperLetter_of_mem_identityLetters a (hperm.mem_iff.mp ha)
  have hnd : all.Nodup := hperm.nodup_iff.mpr (by decide)
  obtain ⟨st, hst, l1, l2, hf, hb⟩ := Rotor.initTables_firstIterations hlen hup hnd 26 (le_refl 26)
  have e1 : st.1 = all.map some := by
    apply List.ext_getElem?
    intro i
    by_cases hi : i < 26
    · rw [hf i hi, List.getElem?_map]
      have : all[i]? = some all[i] := List.getElem?_eq_getElem (by omega)
      rw [this]; rfl
    · rw [List.getElem?_eq_none (by omega), List.getElem?_eq_none (by simp; omega)]
  have hall : ∀ j, j < st.2.length → ∃ v, st.2[j]? = some (some v) := by
    intro j hj
    rw [l2] at hj
    have hm := hperm.mem_iff.mpr (mem_identityLetters_of_lt j hj)
    obtain ⟨i, hi⟩ := List.mem_iff_getElem?.mp hm
    have hi26 : i < 26 := by
      have := (List.getElem?_eq_some.mp hi).1
      omega
    have := hb i _ hi26 hi
    have ej : (65 + (j : Int) - 65).toNat = j := by omega
    rw [ej] at this
    exact ⟨_, this⟩
  obtain ⟨bwd, e2⟩ := exists_map_some_of_written st.2 hall
  refine ⟨bwd, ?_, ?_, ?_⟩
  · unfold Rotor.init Rotor.initTables
    rw [hst]
    simp only [Option.some_bind, e1, e2, allWritten_map_some]
  · rw [e2] at l2
    simpa using l2
  · intro i a hi hia
    have := hb i a hi hia
    rw [e2, List.getElem?_map] at this
    cases hq : bwd[(a - 65).toNat]? with
    | none => rw [hq] at this; cases this
    | some v =>
      rw [hq] at this
      simp only [Option.map_some', Option.some.injEq] at this
      rw [this]

/-- C10. For every arrangement `all` of the 26 letters that is a permutation of `A..Z`,
`Rotor::init` writes every cell of both tables, leaves `position` 0 and `rotor_forward = all`,
and the tables satisfy `rotor_backward[rotor_forward[i] - 'A'] = i` for every index `i` in
`0..25` and `rotor_forward[rotor_backward[j]] - 'A' = j` for every `j` in `0..25`. -/
theorem rotor_init_tables_inverse (all : List Int) (hperm : all.Perm identityLetters) :
    ∃ r, Rotor.init all = some r ∧ r.position = 0 ∧ r.rotor_forward = all ∧
      r.rotor_forward.length = 26 ∧ r.rotor_backward.length = 26 ∧
      (∀ i : Nat, i < 26 →
        ∃ x, arrayAt r.rotor_forward i = some x ∧
          arrayAt r.rotor_backward (x - 65) = some (i : Int)) ∧
      (∀ j : Nat, j < 26 →
        ∃ i, arrayAt r.rotor_backward j = some i ∧
          ∃ x, arrayAt r.rotor_forward i = some x ∧ x - 65 = (j : Int)) := by
  obtain ⟨bwd, hinit, hbl, hb⟩ := Rotor.init_eq_some hperm
  have hlen : all.length = 26 := by rw [hperm.length_eq]; rfl
  have hup : ∀ a ∈ all, isUpperLetter a :=
    fun a ha => isUpperLetter_of_mem_identityLetters a (hperm.mem_iff.mp ha)
  have hfwd : ∀ i : Nat, i < 26 →
      ∃ x, arrayAt all i = some x ∧ arrayAt bwd (x - 65) = some (i : Int) := by
    intro i hi
    have hia : all[i]? = some all[i] := List.getElem?_eq_getElem (by omega)
    have hu := hup all[i] (List.getElem_mem (by omega))
    unfold isUpperLetter at hu
    refine ⟨all[i], by rw [arrayAt_natCast _ _ hi, hia], ?_⟩
    unfold arrayAt
    rw [if_pos (by omega)]
    exact hb i _ hi hia
  have hv : (Rotor.mk 0 all bwd).TablesValid := by
    refine ⟨hlen, hbl, hup, ?_⟩
    intro i hi
    obtain ⟨x, h1, h2⟩ := hfwd i hi
    simp only [h1, h2, Option.some_bind]
  refine ⟨_, hinit, rfl, rfl, hlen, hbl, hfwd, ?_⟩
  intro j hj
  obtain ⟨i, -, -, h1, h2⟩ := hv.forward_of_backward_index (j := (j : Int)) (by omega) (by omega)
  exact ⟨i, h1, _, h2, by omega⟩

/-- Witness of C10: the shuffle outcome `EKMFLGDQVZNTOWYHXUSPAIBRCJ`. -/
theorem rotor_init_tables_inverse_witness :
    ∃ r, Rotor.init (codes "EKMFLGDQVZNTOWYHXUSPAIBRCJ") = some r ∧ r.position = 0 ∧
      r.rotor_forward = codes "EKMFLGDQVZNTOWYHXUSPAIBRCJ" ∧
      r.rotor_forward.length = 26 ∧ r.rotor_backward.length = 26 ∧
      (∀ i : Nat, i < 26 →
        ∃ x, arrayAt r.rotor_forward i = some x ∧
          arrayAt r.rotor_backward (x - 65) = some (i : Int)) ∧
      (∀ j : Nat, j < 26 →
        ∃ i, arrayAt r.rotor_backward j = some i ∧
          ∃ x, arrayAt r.rotor_forward i = some x ∧ x - 65 = (j : Int)) :=
  rotor_init_tables_inverse (codes "EKMFLGDQVZNTOWYHXUSPAIBRCJ") (by decide)

/-! ## Machines after several letters and several calls -/

theorem Enigma.afterLetters_add (m : Enigma) (a b : Nat) :
    (m.afterLetters a).afterLetters b = m.afterLetters (a + b) := by
  simp only [Enigma.afterLetters]
  rw [Nat.add_comm, Function.iterate_add_apply]

theorem Enigma.Valid.valid_after_letters {m : Enigma} (h : m.Valid) (n : Nat) :
    (m.afterLetters n).Valid := by
  induction n generalizing m with
  | zero => exact h
  | succ n ih => rw [← Enigma.afterLetters_succ]; exact ih h.valid_after_one_letter

theorem Enigma.afterLetters_positionInRange {m : Enigma}
    (h : ∀ r ∈ m.rotors, r.PositionInRange) (n : Nat) :
    ∀ r ∈ (m.afterLetters n).rotors, r.PositionInRange := by
  induction n generalizing m with
  | zero => exact h
  | succ n ih =>
    rw [← Enigma.afterLetters_succ]
    exact ih (Enigma.turnRotors_forall (fun r => r.PositionInRange)
      (fun r hr => Rotor.turn_rotor_positionInRange hr) h)

theorem Enigma.afterCalls_eq_some {m m2 : Enigma} {texts : List (List Int)}
    (h : m.afterCalls texts = some m2) : ∃ n, m2 = m.afterLetters n := by
  induction texts generalizing m with
  | nil =>
    simp only [Enigma.afterCalls, Option.some.injEq] at h
    exact ⟨0, h.symm⟩
  | cons s rest ih =>
    simp only [Enigma.afterCalls] at h
    cases hs : m.encode s with
    | none => rw [hs] at h; cases h
    | some r =>
      rw [hs, Option.some_bind] at h
      obtain ⟨n, hn⟩ := ih h
      rw [(Enigma.encode_eq_some hs).1, Enigma.afterLetters_add] at hn
      exact ⟨_, hn⟩

theorem Enigma.afterCalls_isSome {m : Enigma} (hw : m.WellFormed) (texts : List (List Int)) :
    ∃ m2, m.afterCalls texts = some m2 := by
  induction texts generalizing m with
  | nil => exact ⟨m, rfl⟩
  | cons s rest ih =>
    obtain ⟨r, hr⟩ := Enigma.encode_isSome hw s
    have hw2 : r.1.WellFormed := by
      rw [(Enigma.encode_eq_some hr).1]
      exact hw.after_letters _
    obtain ⟨m2, hm2⟩ := ih hw2
    exact ⟨m2, by simp only [Enigma.afterCalls, hr, Option.some_bind, hm2]⟩

/-- Whenever `encode` returns, the character it leaves at the index of a letter is the
substitution of that letter by the machine reached after the letters before it. -/
theorem Enigma.encode_letter_substitute {m : Enigma} {s : List Int} {r : Enigma × List Int}
    (h : m.encode s = some r) (i : Nat) (c : Int) (hi : s[i]? = some c)
    (hc : isalpha c = true) :
    (m.afterLetters (countLetters (s.take i))).substitute c = r.2[i]? := by
  induction s generalizing m r i with
  | nil => simp at hi
  | cons c0 cs ih =>
    cases hc0 : isalpha c0 with
    | false =>
      rw [m.encode_cons_of_not_isalpha cs hc0] at h
      cases h2 : m.encode cs with
      | none => rw [h2] at h; cases h
      | some r2 =>
        rw [h2] at h
        simp only [Option.map_some', Option.some.injEq] at h
        subst h
        cases i with
        | zero =>
          simp only [List.getElem?_cons_zero, Option.some.injEq] at hi
          rw [hi, hc] at hc0
          cases hc0
        | succ i =>
          simp only [List.getElem?_cons_succ] at hi
          simp only [List.getElem?_cons_succ, List.take_succ_cons,
            countLetters_cons_of_not_isalpha _ hc0]
          exact ih h2 i hi
    | true =>
      rw [m.encode_cons_of_isalpha cs hc0] at h
      cases h1 : m.substitute c0 with
      | none => rw [h1] at h; cases h
      | some y =>
        rw [h1, Option.some_bind] at h
        cases h2 : (m.afterLetters 1).encode cs with
        | none => rw [h2] at h; cases h
        | some r2 =>
          rw [h2] at h
          simp only [Option.map_some', Option.some.injEq] at h
          subst h
          cases i with
          | zero =>
            simp only [List.getElem?_cons_zero, Option.some.injEq] at hi
            subst hi
            simpa [countLetters, Enigma.afterLetters_zero] using h1
          | succ i =>
            simp only [List.getElem?_cons_succ] at hi
            have := ih h2 i hi
            simp only [List.getElem?_cons_succ, List.take_succ_cons,
              countLetters_cons_of_isalpha _ hc0]
            rw [← this, Enigma.afterLetters_add, Nat.add_comm]

/-- With a reflector without fixed point, the substitution never returns the letter itself. -/
theorem Enigma.substitute_ne {m : Enigma} (hv : m.Valid)
    (hnf : NoFixedPoint m.reflector.reflector) {c y : Int} (hc : isalpha c = true)
    (h : m.substitute c = some y) : y ≠ toupper c := by
  have hw := hv.wellFormed
  have u0 := isUpperLetter_toupper hc
  obtain ⟨c1, h1, u1⟩ := hw.2.2.lookup_isSome u0
  obtain ⟨c2, h2, u2⟩ := Enigma.forwardPass_isSome hw.1 u1
  obtain ⟨c3, h3, u3⟩ := hw.2.1.lookup_isSome u2
  obtain ⟨c4, h4, u4⟩ := Enigma.backwardPass_isSome hw.1 u3
  obtain ⟨c5, h5, u5⟩ := hw.2.2.lookup_isSome u4
  have e : y = c5 := by
    simp [Enigma.substitute, Plugboard.plugboard_encode, Reflector.reflect, h1, h2, h3, h4, h5] at h
    exact h.symm
  subst e
  intro heq
  rw [heq] at h5
  have g5 := hv.2.2.lookup_lookup h5
  rw [h1] at g5
  injection g5 with g5
  subst g5
  have g4 := Enigma.forwardPass_backwardPass hv.1 u3 h4
  rw [h2] at g4
  injection g4 with g4
  subst g4
  unfold isUpperLetter at u2
  have key := hnf (c2 - 65).toNat (by omega)
  have hi : (((c2 - 65).toNat : Nat) : Int) = c2 - 65 := Int.toNat_of_nonneg (by omega)
  rw [hi, h3] at key
  apply key
  congr 1
  omega

/-- C13. `encode` raises no runtime error: on a machine whose tables are in range and whose
rotor positions are in `0..25`, and on every ASCII text, the bounds-checked `encode` returns
(no table lookup leaves `0..25`); and in every machine state reached, for every rotor and
every upper-case letter, the forward index `(index + position) % 26` is in `0..25`, the
backward lookup succeeds, and `26 + index - position` is non-negative before the remainder,
which is then in `0..25`. -/
theorem encode_no_runtime_error (m : Enigma) (S : List Int) (hw : m.WellFormed)
    (_hS : ∀ c ∈ S, isAscii c) :
    (∃ r, m.encode S = some r) ∧
    ∀ (n : Nat) (r : Rotor), r ∈ (m.afterLetters n).rotors → ∀ x, isUpperLetter x →
      (0 ≤ (x - 65 + r.position).tmod 26 ∧ (x - 65 + r.position).tmod 26 < 26) ∧
      (∃ y, r.encode_forward x = some y ∧ isUpperLetter y) ∧
      (∃ i, arrayAt r.rotor_backward (x - 65) = some i ∧ 0 ≤ 26 + i - r.position ∧
        0 ≤ (26 + i - r.position).tmod 26 ∧ (26 + i - r.position).tmod 26 < 26) ∧
      (∃ y, r.encode_backward x = some y ∧ isUpperLetter y) := by
  refine ⟨Enigma.encode_isSome hw S, ?_⟩
  intro n r hr x hx
  obtain ⟨ht, hp⟩ := (hw.after_letters n).1 r hr
  have hp2 := hp
  have hx2 := hx
  unfold Rotor.PositionInRange at hp2
  unfold isUpperLetter at hx2
  refine ⟨?_, Rotor.encode_forward_isSome ht hp hx, ?_, Rotor.encode_backward_isSome ht hp hx⟩
  · rw [tmod26_of_nonneg (by omega)]
    omega
  · obtain ⟨i, hi, hm⟩ := arrayAt_isSome ht.2.1 (i := x - 65) (by omega) (by omega)
    have hrange := ht.2.2.2 i hm
    refine ⟨i, hi, by omega, ?_⟩
    rw [tmod26_of_nonneg (by omega)]
    omega

/-- Witness of C13: the machine about to carry, on the text `Hello, World!`. -/
theorem encode_no_runtime_error_witness :
    (∃ r, carryMachine.encode (codes "Hello, World!") = some r) ∧
    ∀ (n : Nat) (r : Rotor), r ∈ (carryMachine.afterLetters n).rotors → ∀ x, isUpperLetter x →
      (0 ≤ (x - 65 + r.position).tmod 26 ∧ (x - 65 + r.position).tmod 26 < 26) ∧
      (∃ y, r.encode_forward x = some y ∧ isUpperLetter y) ∧
      (∃ i, arrayAt r.rotor_backward (x - 65) = some i ∧ 0 ≤ 26 + i - r.position ∧
        0 ≤ (26 + i - r.position).tmod 26 ∧ (26 + i - r.position).tmod 26 < 26) ∧
      (∃ y, r.encode_backward x = some y ∧ isUpperLetter y) :=
  encode_no_runtime_error carryMachine (codes "Hello, World!") (by decide) (by decide)

theorem Enigma.initPositions_positions {keys : List Int} {rotors : List Rotor}
    (hlen : keys.length = rotors.length) :
    (Enigma.initPositions keys rotors).map Rotor.position
      = keys.map fun k => toupper k - 65 := by
  induction keys generalizing rotors with
  | nil =>
    cases rotors with
    | nil => rfl
    | cons a rs => simp at hlen
  | cons k ks ih =>
    cases rotors with
    | nil => simp at hlen
    | cons a rs =>
      simp only [Enigma.initPositions, List.map_cons, Rotor.init_position]
      rw [ih (by simpa using hlen)]

theorem Enigma.create_eq_ok_iff {keys : List Int} {rotors : List Rotor} {reflector : Reflector}
    {plugboard : Plugboard} {m : Enigma}
    (h : Enigma.create keys rotors reflector plugboard = Except.ok m) :
    rotors ≠ [] ∧ keys.length = rotors.length ∧
      m = Enigma.mk (Enigma.initPositions keys rotors) reflector plugboard := by
  unfold Enigma.create at h
  by_cases h1 : rotors.length = 0
  · rw [if_pos h1] at h; cases h
  · rw [if_neg h1] at h
    by_cases h2 : keys.length = rotors.length
    · rw [if_neg (by simpa using h2)] at h
      injection h with h
      exact ⟨fun e => h1 (by simp [e]), h2, h.symm⟩
    · rw [if_pos h2] at h; cases h

/-- C14. Rotor position invariant: for a machine successfully constructed from a key of ASCII
letters of either case, rotor `i` starts at the alphabet index of `uppercase(key[i])`, which is
in `0..25`; whenever a sequence of `encode` calls on ASCII texts returns, every rotor position
is still in `0..25`; and the calls do return when the tables are in range. -/
theorem rotor_position_invariant (keys : List Int) (rotors : List Rotor) (reflector : Reflector)
    (plugboard : Plugboard) (m : Enigma) (texts : List (List Int))
    (hkey : ∀ k ∈ keys, isalpha k = true)
    (hc : Enigma.create keys rotors reflector plugboard = Except.ok m)
    (_hT : ∀ s ∈ texts, ∀ c ∈ s, isAscii c) :
    m.positions = keys.map (fun k => toupper k - 65) ∧
    (∀ r ∈ m.rotors, r.PositionInRange) ∧
    (∀ m2, m.afterCalls texts = some m2 → ∀ r ∈ m2.rotors, r.PositionInRange) ∧
    (m.WellFormed → ∃ m2, m.afterCalls texts = some m2) := by
  obtain ⟨-, hlen, hm⟩ := Enigma.create_eq_ok_iff hc
  subst hm
  have hp := Enigma.initPositions_positionInRange hlen hkey
  refine ⟨Enigma.initPositions_positions hlen, hp, ?_, fun hw => Enigma.afterCalls_isSome hw texts⟩
  intro m2 h2
  obtain ⟨n, hn⟩ := Enigma.afterCalls_eq_some h2
  rw [hn]
  exact Enigma.afterLetters_positionInRange hp n

/-- Witness of C14: key `CtR` on three rotors, then the calls on `Hello, ` and `Enigma!`. -/
theorem rotor_position_invariant_witness :
    keyedMachine.positions = (codes "CtR").map (fun k => toupper k - 65) ∧
    (∀ r ∈ keyedMachine.rotors, r.PositionInRange) ∧
    (∀ m2, keyedMachine.afterCalls [codes "Hello, ", codes "Enigma!"] = some m2 →
      ∀ r ∈ m2.rotors, r.PositionInRange) ∧
    (keyedMachine.WellFormed →
      ∃ m2, keyedMachine.afterCalls [codes "Hello, ", codes "Enigma!"] = some m2) :=
  rotor_position_invariant (codes "CtR") [scrambledRotorA, scrambledRotorB, identityRotor]
    pairedReflector cabledPlugboard keyedMachine [codes "Hello, ", codes "Enigma!"]
    (by decide) rfl (by decide)

theorem Reference.cascade_length (ps : List Int) :
    (Reference.cascade ps).length = ps.length := by
  induction ps with
  | nil => rfl
  | cons p ps ih =>
    unfold Reference.cascade
    split <;> simp [ih]

theorem Reference.cascade_getElem? {ps : List Int} (h : ∀ q ∈ ps, 0 ≤ q ∧ q < 26)
    (i : Nat) (p : Int) (hi : ps[i]? = some p) :
    (Reference.cascade ps)[i]?
      = some (if ∀ q ∈ ps.take i, q = 25 then (p + 1) % 26 else p) := by
  induction ps generalizing i with
  | nil => simp at hi
  | cons a ps ih =>
    have ha := h a (List.mem_cons_self a ps)
    have hrest : ∀ q ∈ ps, 0 ≤ q ∧ q < 26 := fun q hq => h q (List.mem_cons_of_mem a hq)
    cases i with
    | zero =>
      simp only [List.getElem?_cons_zero, Option.some.injEq] at hi
      subst hi
      unfold Reference.cascade
      split <;> simp
    | succ i =>
      simp only [List.getElem?_cons_succ] at hi
      unfold Reference.cascade
      by_cases hw : (a + 1) % 26 = 0
      · have ha25 : a = 25 := by omega
        rw [if_pos hw, List.getElem?_cons_succ, ih hrest i hi]
        simp [ha25]
      · have ha25 : a ≠ 25 := by omega
        rw [if_neg hw, List.getElem?_cons_succ, hi]
        simp [ha25]

/-- C15. Stepping cascade, one step: on a machine with positions in `0..25`, whenever the loop
body returns for an alphabetic symbol, rotor 0 goes to `(p_0 + 1) mod 26` and rotor `i` goes
to `(p_i + 1) mod 26` when every earlier rotor stood at 25 (each just wrapped to 0) and keeps
`p_i` otherwise; a second machine with the same positions, whatever its tables and its symbol,
is left with the same positions; and the loop body does return when the tables are in
range. -/
theorem stepping_cascade_one_step (m : Enigma) (c : Int)
    (hp : ∀ r ∈ m.rotors, r.PositionInRange) (hc : isalpha c = true) :
    (∀ m1 y, m.encodeChar c = some (m1, y) →
      m1.positions.length = m.positions.length ∧
      ∀ (i : Nat) (p : Int), m.positions[i]? = some p →
        m1.positions[i]?
          = some (if ∀ q ∈ m.positions.take i, q = 25 then (p + 1) % 26 else p)) ∧
    (∀ (m2 : Enigma) (c2 : Int) (m1 m3 : Enigma) (y y2 : Int),
      isalpha c2 = true → m2.positions = m.positions →
      m.encodeChar c = some (m1, y) → m2.encodeChar c2 = some (m3, y2) →
      m3.positions = m1.positions) ∧
    (m.WellFormed → ∃ r, m.encodeChar c = some r) := by
  have hstep : ∀ (k : Enigma) (d : Int) (k1 : Enigma) (z : Int), isalpha d = true →
      (∀ r ∈ k.rotors, r.PositionInRange) → k.encodeChar d = some (k1, z) →
      k1.positions = Reference.cascade k.positions := by
    intro k d k1 z hd hk h
    rw [k.encodeChar_of_isalpha hd] at h
    cases hs : k.substitute d with
    | none => rw [hs] at h; cases h
    | some w =>
      rw [hs] at h
      simp only [Option.map_some', Option.some.injEq, Prod.mk.injEq] at h
      rw [← h.1]
      simp only [Enigma.afterLetters, Enigma.positions, Function.iterate_one]
      exact Reference.turnRotors_positions hk
  have hrange : ∀ q ∈ m.positions, 0 ≤ q ∧ q < 26 := by
    intro q hq
    simp only [Enigma.positions, List.mem_map] at hq
    obtain ⟨r, hr, e⟩ := hq
    rw [← e]
    exact hp r hr
  refine ⟨?_, ?_, ?_⟩
  · intro m1 y h
    rw [hstep m c m1 y hc hp h]
    exact ⟨Reference.cascade_length _, Reference.cascade_getElem? hrange⟩
  · intro m2 c2 m1 m3 y y2 hc2 hpos h1 h2
    have hp2 : ∀ r ∈ m2.rotors, r.PositionInRange := by
      intro r hr
      have : r.position ∈ m2.positions := by
        simp only [Enigma.positions, List.mem_map]
        exact ⟨r, hr, rfl⟩
      rw [hpos] at this
      exact hrange _ this
    rw [hstep m c m1 y hc hp h1, hstep m2 c2 m3 y2 hc2 hp2 h2, hpos]
  · intro hw
    obtain ⟨y, hy, -⟩ := Enigma.substitute_isSome hw hc
    exact ⟨_, by rw [m.encodeChar_of_isalpha hc, hy]; rfl⟩

/-- Witness of C15: the machine about to carry (positions `(25, 25, 3)`) on the letter `q`. -/
theorem stepping_cascade_one_step_witness :
    (∀ m1 y, carryMachine.encodeChar 113 = some (m1, y) →
      m1.positions.length = carryMachine.positions.length ∧
      ∀ (i : Nat) (p : Int), carryMachine.positions[i]? = some p →
        m1.positions[i]?
          = some (if ∀ q ∈ carryMachine.positions.take i, q = 25 then (p + 1) % 26 else p)) ∧
    (∀ (m2 : Enigma) (c2 : Int) (m1 m3 : Enigma) (y y2 : Int),
      isalpha c2 = true → m2.positions = carryMachine.positions →
      carryMachine.encodeChar 113 = some (m1, y) → m2.encodeChar c2 = some (m3, y2) →
      m3.positions = m1.positions) ∧
    (carryMachine.WellFormed → ∃ r, carryMachine.encodeChar 113 = some r) :=
  stepping_cascade_one_step carryMachine 113 (by decide) (by decide)

/-- C16. For a valid configuration (rotor tables bijective with their inverses, reflector and
plugboard involutions) at rotor positions in `0..25`, the per-symbol transform `T` of `encode`
is an involution of the alphabet: for every upper-case letter `x`, `T x` is an upper-case
letter and `T (T x) = x`. -/
theorem substitution_is_involution (m : Enigma) (x : Int) (hv : m.Valid)
    (hx : isUpperLetter x) :
    ∃ y, m.substitute x = some y ∧ isUpperLetter y ∧ m.substitute y = some x := by
  have hc := isalpha_of_isUpperLetter hx
  obtain ⟨y, hy, hyu⟩ := Enigma.substitute_isSome hv.wellFormed hc
  have := Enigma.substitute_substitute hv hc hy
  rw [toupper_of_isUpperLetter hx] at this
  exact ⟨y, hy, hyu, this⟩

/-- Witness of C16: the machine about to carry on the letter `Q`. -/
theorem substitution_is_involution_witness :
    ∃ y, carryMachine.substitute 81 = some y ∧ isUpperLetter y ∧
      carryMachine.substitute y = some 81 :=
  substitution_is_involution carryMachine 81 (by decide) (by decide)

/-- C18. No letter encodes to itself: for a valid configuration whose reflector has no fixed
point, at positions in `0..25`, and every ASCII text, `encode` returns and the character it
leaves at the index of each letter differs from that letter upper-cased. -/
theorem no_letter_encodes_to_itself (m : Enigma) (S : List Int) (hv : m.Valid)
    (hnf : NoFixedPoint m.reflector.reflector) (_hS : ∀ c ∈ S, isAscii c) :
    ∃ r, m.encode S = some r ∧
      ∀ (i : Nat) (c : Int), S[i]? = some c → isalpha c = true →
        ∃ y, r.2[i]? = some y ∧ y ≠ toupper c := by
  obtain ⟨r, hr⟩ := Enigma.encode_isSome hv.wellFormed S
  refine ⟨r, hr, ?_⟩
  intro i c hi hc
  have hsub := Enigma.encode_letter_substitute hr i c hi hc
  have hvn := hv.valid_after_letters (countLetters (S.take i))
  obtain ⟨y, hy, -⟩ := Enigma.substitute_isSome hvn.wellFormed hc
  have hnf2 : NoFixedPoint (m.afterLetters (countLetters (S.take i))).reflector.reflector := hnf
  refine ⟨y, by rw [← hsub, hy], Enigma.substitute_ne hvn hnf2 hc hy⟩

/-- Witness of C18: the machine about to carry, on the text `Hello, World!`. -/
theorem no_letter_encodes_to_itself_witness :
    ∃ r, carryMachine.encode (codes "Hello, World!") = some r ∧
      ∀ (i : Nat) (c : Int), (codes "Hello, World!")[i]? = some c → isalpha c = true →
        ∃ y, r.2[i]? = some y ∧ y ≠ toupper c :=
  no_letter_encodes_to_itself carryMachine (codes "Hello, World!") (by decide) (by decide)
    (by decide)

theorem setDifference_perm {part1 part2 : List Int} (h1 : part1.Sublist identityLetters)
    (h2 : part2.Perm (setDifference identityLetters part1)) :
    (part1 ++ part2).Perm identityLetters := by
  have hnd : identityLetters.Nodup := by decide
  have e : setDifference identityLetters part1 = identityLetters.diff part1 := by
    rw [List.Nodup.diff_eq_filter hnd]
    unfold setDifference
    apply List.filter_congr
    intro x _
    simp
  rw [e] at h2
  exact (List.Perm.append_left part1 h2).trans
    (List.subperm_append_diff_self_of_count_le (fun x _ => h1.subperm.count_le x))

/-- The table after the first `n` iterations of the loop of `Reflector::init`. -/
theorem Reflector.init_loop_firstIterations {p1 p2 : List Int} (hl1 : p1.length = 13)
    (hl2 : p2.length = 13) (hup : ∀ a ∈ p1 ++ p2, isUpperLetter a) (hnd : (p1 ++ p2).Nodup)
    (n : Nat) (hn : n ≤ 13) :
    ∃ t, (List.range n).foldlM (Reflector.initStep p1 p2) (List.replicate 26 none) = some t ∧
      t.length = 26 ∧
      ∀ i a b, i < n → p1[i]? = some a → p2[i]? = some b →
        t[(a - 65).toNat]? = some (some b) ∧ t[(b - 65).toNat]? = some (some a) := by
  obtain ⟨nd1, nd2, hdis⟩ := List.nodup_append.mp hnd
  induction n with
  | zero =>
    refine ⟨_, rfl, by simp, ?_⟩
    intro i a b hi
    omega
  | succ n ih =>
    obtain ⟨t, ht, hlen, hinv⟩ := ih (by omega)
    have hlt1 : n < p1.length := by omega
    have hlt2 : n < p2.length := by omega
    have ha : p1[n]? = some p1[n] := List.getElem?_eq_getElem hlt1
    have hb : p2[n]? = some p2[n] := List.getElem?_eq_getElem hlt2
    have ham : p1[n] ∈ p1 := List.getElem_mem hlt1
    have hbm : p2[n] ∈ p2 := List.getElem_mem hlt2
    have hau := hup p1[n] (List.mem_append_left _ ham)
    have hbu := hup p2[n] (List.mem_append_right _ hbm)
    unfold isUpperLetter at hau hbu
    have hab : p1[n] ≠ p2[n] := fun e => hdis ham (e ▸ hbm)
    refine ⟨(t.set (p1[n] - 65).toNat (some p2[n])).set (p2[n] - 65).toNat (some p1[n]),
      ?_, by simpa using hlen, ?_⟩
    · rw [List.range_succ, List.foldlM_append, ht]
      simp only [Option.bind_eq_bind, Option.some_bind, List.foldlM_cons, List.foldlM_nil]
      unfold Reflector.initStep
      rw [ha, hb]
      simp only [Option.some_bind]
      rw [if_pos ⟨by omega, by omega⟩]
      rfl
    · intro i a b hi hia hib
      by_cases e : i = n
      · subst e
        rw [ha] at hia
        rw [hb] at hib
        injection hia with hia
        injection hib with hib
        subst hia
        subst hib
        constructor
        · rw [List.getElem?_set_ne (by omega), List.getElem?_set_self (by omega)]
        · rw [List.getElem?_set_self (by simp; omega)]
      · have hi1 : i < p1.length := by omega
        have hi2 : i < p2.length := by omega
        have ea : p1[i] = a := by
          have := List.getElem?_eq_getElem hi1
          rw [hia] at this
          injection this with this
          exact this.symm
        have eb : p2[i] = b := by
          have := List.getElem?_eq_getElem hi2
          rw [hib] at this
          injection this with this
          exact this.symm
        have am : a ∈ p1 := ea ▸ List.getElem_mem hi1
        have bm : b ∈ p2 := eb ▸ List.getElem_mem hi2
        have hau2 := hup a (List.mem_append_left _ am)
        have hbu2 := hup b (List.mem_append_right _ bm)
        unfold isUpperLetter at hau2 hbu2
        have na1 : a ≠ p1[n] := by
          intro heq
          exact e ((List.Nodup.getElem_inj_iff nd1).mp (ea.trans heq))
        have nb2 : b ≠ p2[n] := by
          intro heq
          exact e ((List.Nodup.getElem_inj_iff nd2).mp (eb.trans heq))
        have na2 : a ≠ p2[n] := fun heq => hdis am (heq ▸ hbm)
        have nb1 : b ≠ p1[n] := fun heq => hdis ham (heq ▸ bm)
        obtain ⟨g1, g2⟩ := hinv i a b (by omega) hia hib
        constructor
        · rw [List.getElem?_set_ne (by omega), List.getElem?_set_ne (by omega)]
          exact g1
        · rw [List.getElem?_set_ne (by omega), List.getElem?_set_ne (by omega)]
          exact g2

theorem Reflector.init_eq_some_table {p1 p2 : List Int} (hl1 : p1.length = 13)
    (hperm : (p1 ++ p2).Perm identityLetters) :
    ∃ tbl : List Int, Reflector.init p1 p2 = some (Reflector.mk tbl) ∧ tbl.length = 26 ∧
      ∀ (i : Nat) (a b : Int), i < 13 → p1[i]? = some a → p2[i]? = some b →
        tbl[(a - 65).toNat]? = some b ∧ tbl[(b - 65).toNat]? = some a := by
  have hl2 : p2.length = 13 := by
    have := hperm.length_eq
    rw [List.length_append, hl1] at this
    have e : identityLetters.length = 26 := rfl
    omega
  have hup : ∀ a ∈ p1 ++ p2, isUpperLetter a :=
    fun a ha => isUpperLetter_of_mem_identityLetters a (hperm.mem_iff.mp ha)
  have hnd : (p1 ++ p2).Nodup := hperm.nodup_iff.mpr (by decide)
  obtain ⟨t, ht, hlen, hinv⟩ := Reflector.init_loop_firstIterations hl1 hl2 hup hnd 13 (le_refl 13)
  have hall : ∀ j, j < t.length → ∃ v, t[j]? = some (some v) := by
    intro j hj
    rw [hlen] at hj
    have hm := hperm.mem_iff.mpr (mem_identityLetters_of_lt j hj)
    have ej : (65 + (j : Int) - 65).toNat = j := by omega
    rcases List.mem_append.mp hm with h | h
    · obtain ⟨i, hi⟩ := List.mem_iff_getElem?.mp h
      have hi13 : i < 13 := by
        have := (List.getElem?_eq_some.mp hi).1
        omega
      have hb : p2[i]? = some p2[i] := List.getElem?_eq_getElem (by omega)
      have := (hinv i _ _ hi13 hi hb).1
      rw [ej] at this
      exact ⟨_, this⟩
    · obtain ⟨i, hi⟩ := List.mem_iff_getElem?.mp h
      have hi13 : i < 13 := by
        have := (List.getElem?_eq_some.mp hi).1
        omega
      have ha : p1[i]? = some p1[i] := List.getElem?_eq_getElem (by omega)
      have := (hinv i _ _ hi13 ha hi).2
      rw [ej] at this
      exact ⟨_, this⟩
  obtain ⟨tbl, e⟩ := exists_map_some_of_written t hall
  have hget : ∀ (k : Nat) (v : Int), t[k]? = some (some v) → tbl[k]? = some v := by
    intro k v hk
    rw [e, List.getElem?_map] at hk
    cases hq : tbl[k]? with
    | none => rw [hq] at hk; cases hk
    | some w =>
      rw [hq] at hk
      simp only [Option.map_some', Option.some.injEq] at hk
      rw [hk]
  refine ⟨tbl, ?_, ?_, ?_⟩
  · unfold Reflector.init
    rw [ht]
    simp only [Option.some_bind, e, allWritten_map_some, Option.map_some']
  · rw [e] at hlen
    simpa using hlen
  · intro i a b hi hia hib
    obtain ⟨g1, g2⟩ := hinv i a b hi hia hib
    exact ⟨hget _ _ g1, hget _ _ g2⟩

/-- C11. For every outcome `part1` of the sample (13 letters of `A..Z` in alphabetical order)
and every ordering `part2` of the 13 remaining letters (any shuffle of the set difference),
`Reflector::init` writes all 26 entries, every entry is a letter, and the table satisfies
`table[table[i] - 'A'] = 'A' + i` and `table[i] != 'A' + i` for every index `i` in `0..25`. -/
theorem reflector_init_involution_no_fixed_point (part1 part2 : List Int)
    (h1 : part1.Sublist identityLetters) (hl : part1.length = 13)
    (h2 : part2.Perm (setDifference identityLetters part1)) :
    ∃ u, Reflector.init part1 part2 = some u ∧ u.reflector.length = 26 ∧
      (∀ x ∈ u.reflector, isUpperLetter x) ∧
      (∀ i : Nat, i < 26 →
        ∃ x, arrayAt u.reflector i = some x ∧ x ≠ 65 + (i : Int) ∧
          arrayAt u.reflector (x - 65) = some (65 + (i : Int))) := by
  have hperm := setDifference_perm h1 h2
  obtain ⟨tbl, hinit, hlen, hpair⟩ := Reflector.init_eq_some_table hl hperm
  have hl2 : part2.length = 13 := by
    have := hperm.length_eq
    rw [List.length_append, hl] at this
    have e : identityLetters.length = 26 := rfl
    omega
  have hup : ∀ a ∈ part1 ++ part2, isUpperLetter a :=
    fun a ha => isUpperLetter_of_mem_identityLetters a (hperm.mem_iff.mp ha)
  have hnd : (part1 ++ part2).Nodup := hperm.nodup_iff.mpr (by decide)
  obtain ⟨-, -, hdis⟩ := List.nodup_append.mp hnd
  have hentry : ∀ i : Nat, i < 26 →
      ∃ x, arrayAt tbl i = some x ∧ isUpperLetter x ∧ x ≠ 65 + (i : Int) ∧
        arrayAt tbl (x - 65) = some (65 + (i : Int)) := by
    intro j hj
    have hm := hperm.mem_iff.mpr (mem_identityLetters_of_lt j hj)
    have ej : (65 + (j : Int) - 65).toNat = j := by omega
    rcases List.mem_append.mp hm with h | h
    · obtain ⟨i, hi⟩ := List.mem_iff_getElem?.mp h
      have hi13 : i < 13 := by
        have := (List.getElem?_eq_some.mp hi).1
        omega
      have hb : part2[i]? = some part2[i] := List.getElem?_eq_getElem (by omega)
      have hbm : part2[i] ∈ part2 := List.getElem_mem (by omega)
      have hbu := hup _ (List.mem_append_right _ hbm)
      obtain ⟨g1, g2⟩ := hpair i _ _ hi13 hi hb
      rw [ej] at g1
      refine ⟨part2[i], by rw [arrayAt_natCast _ _ hj, g1], hbu, ?_, ?_⟩
      · intro heq
        exact hdis h (heq ▸ hbm)
      · unfold isUpperLetter at hbu
        unfold arrayAt
        rw [if_pos (by omega)]
        exact g2
    · obtain ⟨i, hi⟩ := List.mem_iff_getElem?.mp h
      have hi13 : i < 13 := by
        have := (List.getElem?_eq_some.mp hi).1
        omega
      have ha : part1[i]? = some part1[i] := List.getElem?_eq_getElem (by omega)
      have ham : part1[i] ∈ part1 := List.getElem_mem (by omega)
      have hau := hup _ (List.mem_append_left _ ham)
      obtain ⟨g1, g2⟩ := hpair i _ _ hi13 ha hi
      rw [ej] at g2
      refine ⟨part1[i], by rw [arrayAt_natCast _ _ hj, g2], hau, ?_, ?_⟩
      · intro heq
        exact hdis ham (heq ▸ h)
      · unfold isUpperLetter at hau
        unfold arrayAt
        rw [if_pos (by omega)]
        exact g1
  refine ⟨Reflector.mk tbl, hinit, hlen, ?_, ?_⟩
  · intro x hx
    have hx2 : x ∈ tbl := hx
    obtain ⟨n, hn⟩ := List.mem_iff_getElem?.mp hx2
    have hlt : n < 26 := by
      have := (List.getElem?_eq_some.mp hn).1
      omega
    obtain ⟨y, hy, hyu, -, -⟩ := hentry n hlt
    rw [arrayAt_natCast _ _ hlt, hn] at hy
    injection hy with hy
    rw [hy]
    exact hyu
  · intro i hi
    obtain ⟨x, hx, -, hne, hback⟩ := hentry i hi
    exact ⟨x, hx, hne, hback⟩

/-- Witness of C11: the sample `ACEGIKMOQSUWY` and the shuffle `ZXVTRPNLJHFDB` of the rest. -/
theorem reflector_init_involution_no_fixed_point_witness :
    ∃ u, Reflector.init (codes "ACEGIKMOQSUWY") (codes "ZXVTRPNLJHFDB") = some u ∧
      u.reflector.length = 26 ∧ (∀ x ∈ u.reflector, isUpperLetter x) ∧
      (∀ i : Nat, i < 26 →
        ∃ x, arrayAt u.reflector i = some x ∧ x ≠ 65 + (i : Int) ∧
          arrayAt u.reflector (x - 65) = some (65 + (i : Int))) :=
  reflector_init_involution_no_fixed_point (codes "ACEGIKMOQSUWY") (codes "ZXVTRPNLJHFDB")
    (by decide) (by decide) (by decide)

/-! ## Plugboard::init -/

theorem arrayAt_set_self {t : List Int} (hl : t.length = 26) {a : Int} (h0 : 0 ≤ a)
    (h1 : a < 26) (v : Int) : arrayAt (t.set a.toNat v) a = some v := by
  unfold arrayAt
  rw [if_pos ⟨h0, h1⟩, List.getElem?_set_self (by omega)]

theorem arrayAt_set_ne (t : List Int) {a i : Int} (h0 : 0 ≤ a) (hne : a ≠ i) (v : Int) :
    arrayAt (t.set a.toNat v) i = arrayAt t i := by
  unfold arrayAt
  split
  · rw [List.getElem?_set_ne (by omega)]
  · rfl

theorem arrayAt_identityLetters {i : Int} (h0 : 0 ≤ i) (h1 : i < 26) :
    arrayAt identityLetters i = some (65 + i) := by
  have key : ∀ n : Nat, n < 26 → arrayAt identityLetters (n : Int) = some (65 + (n : Int)) := by
    decide
  have := key i.toNat (by omega)
  rwa [Int.toNat_of_nonneg h0] at this

theorem Plugboard.mem_touched {swaps : List (Int × Int)} {i : Int} :
    i ∈ Plugboard.touched swaps ↔ ∃ s ∈ swaps, i = s.1 ∨ i = s.2 := by
  induction swaps with
  | nil => simp [Plugboard.touched]
  | cons s rest ih =>
    simp only [Plugboard.touched, List.mem_cons, ih]
    constructor
    · rintro (h | h | ⟨q, hq, h⟩)
      · exact ⟨s, Or.inl rfl, Or.inl h⟩
      · exact ⟨s, Or.inl rfl, Or.inr h⟩
      · exact ⟨q, Or.inr hq, h⟩
    · rintro ⟨q, hq | hq, h⟩
      · subst hq
        rcases h with h | h
        · exact Or.inl h
        · exact Or.inr (Or.inl h)
      · exact Or.inr (Or.inr ⟨q, hq, h⟩)

theorem Plugboard.swapEntries_eq_some {t : List Int} (hl : t.length = 26) {a b x y : Int}
    (ha : arrayAt t a = some x) (hb : arrayAt t b = some y) (hab : a ≠ b) :
    ∃ t1, Plugboard.swapEntries t a b = some t1 ∧ t1.length = 26 ∧
      arrayAt t1 a = some y ∧ arrayAt t1 b = some x ∧
      ∀ i, i ≠ a → i ≠ b → arrayAt t1 i = arrayAt t i := by
  obtain ⟨a0, a1, -, -⟩ := arrayAt_eq_some ha
  obtain ⟨b0, b1, -, -⟩ := arrayAt_eq_some hb
  refine ⟨(t.set a.toNat y).set b.toNat x, ?_, by simpa using hl, ?_, ?_, ?_⟩
  · simp only [Plugboard.swapEntries, ha, hb, Option.some_bind]
  · rw [arrayAt_set_ne _ b0 (fun e => hab e.symm), arrayAt_set_self hl a0 a1]
  · rw [arrayAt_set_self (by simpa using hl) b0 b1]
  · intro i hia hib
    rw [arrayAt_set_ne _ b0 (fun e => hib e.symm), arrayAt_set_ne _ a0 (fun e => hia e.symm)]

/-- Pairwise disjoint swaps applied to a table that still holds `'A' + i` at every index they
touch: each swapped pair ends up exchanged, every other index keeps its entry. -/
theorem Plugboard.applySwaps_disjoint {t : List Int} {swaps : List (Int × Int)}
    (hl : t.length = 26)
    (hr : ∀ s ∈ swaps, (0 ≤ s.1 ∧ s.1 < 26) ∧ (0 ≤ s.2 ∧ s.2 < 26))
    (hnd : (Plugboard.touched swaps).Nodup)
    (hid : ∀ i ∈ Plugboard.touched swaps, arrayAt t i = some (65 + i)) :
    ∃ t2, Plugboard.applySwaps t swaps = some t2 ∧ t2.length = 26 ∧
      (∀ s ∈ swaps, arrayAt t2 s.1 = some (65 + s.2) ∧ arrayAt t2 s.2 = some (65 + s.1)) ∧
      ∀ i, i ∉ Plugboard.touched swaps → arrayAt t2 i = arrayAt t i := by
  induction swaps generalizing t with
  | nil => exact ⟨t, rfl, hl, by simp, fun _ _ => rfl⟩
  | cons s rest ih =>
    simp only [Plugboard.touched, List.nodup_cons, List.mem_cons, not_or] at hnd
    obtain ⟨⟨hab, ha_rest⟩, hb_rest, hnd_rest⟩ := hnd
    have ha := hid s.1 (by simp [Plugboard.touched])
    have hb := hid s.2 (by simp [Plugboard.touched])
    obtain ⟨t1, h1, hl1, g1, g2, g3⟩ := Plugboard.swapEntries_eq_some hl ha hb hab
    have hid1 : ∀ i ∈ Plugboard.touched rest, arrayAt t1 i = some (65 + i) := by
      intro i hi
      rw [g3 i (fun e => ha_rest (e ▸ hi)) (fun e => hb_rest (e ▸ hi))]
      exact hid i (by simp [Plugboard.touched, hi])
    obtain ⟨t2, h2, hl2, k1, k2⟩ :=
      ih hl1 (fun q hq => hr q (List.mem_cons_of_mem s hq)) hnd_rest hid1
    refine ⟨t2, by simp only [Plugboard.applySwaps, h1, Option.some_bind, h2], hl2, ?_, ?_⟩
    · intro q hq
      rcases List.mem_cons.mp hq with e | e
      · subst e
        rw [k2 _ ha_rest, k2 _ hb_rest]
        exact ⟨g1, g2⟩
      · exact k1 q e
    · intro i hi
      simp only [Plugboard.touched, List.mem_cons, not_or] at hi
      rw [k2 i hi.2.2, g3 i hi.1 hi.2.1]

/-- C17. Plugboard construction from disjoint swaps: for every sequence of swaps that
`Plugboard::init` can draw in which each swap has `a != b` and no index is touched by more than
one swap, the resulting table is an involution of the 26 letters
(`table[table[i] - 'A'] = 'A' + i` for every `i` in `0..25`) that maps each swapped pair to
each other and every untouched letter to itself. -/
theorem plugboard_init_disjoint_swaps (swaps : List (Int × Int))
    (hdraw : Plugboard.CanDraw swaps) (_hne : ∀ s ∈ swaps, s.1 ≠ s.2)
    (hdisj : (Plugboard.touched swaps).Nodup) :
    ∃ p, Plugboard.init swaps = some p ∧ InvolutionTable p.plugboard ∧
      (∀ s ∈ swaps, arrayAt p.plugboard s.1 = some (65 + s.2) ∧
        arrayAt p.plugboard s.2 = some (65 + s.1)) ∧
      (∀ i : Int, 0 ≤ i → i < 26 → i ∉ Plugboard.touched swaps →
        arrayAt p.plugboard i = some (65 + i)) := by
  have hrange : ∀ i ∈ Plugboard.touched swaps, 0 ≤ i ∧ i < 26 := by
    intro i hi
    obtain ⟨s, hs, e | e⟩ := Plugboard.mem_touched.mp hi
    · rw [e]; exact (hdraw.2 s hs).1
    · rw [e]; exact (hdraw.2 s hs).2
  obtain ⟨t2, h2, hl2, k1, k2⟩ := Plugboard.applySwaps_disjoint (t := identityLetters) rfl
    hdraw.2 hdisj (fun i hi => arrayAt_identityLetters (hrange i hi).1 (hrange i hi).2)
  have hentry : ∀ i : Int, 0 ≤ i → i < 26 →
      ∃ j : Int, 0 ≤ j ∧ j < 26 ∧ arrayAt t2 i = some (65 + j) ∧
        arrayAt t2 j = some (65 + i) := by
    intro i h0 h1
    by_cases hi : i ∈ Plugboard.touched swaps
    · obtain ⟨s, hs, e | e⟩ := Plugboard.mem_touched.mp hi
      · rw [e]
        exact ⟨s.2, (hdraw.2 s hs).2.1, (hdraw.2 s hs).2.2, (k1 s hs).1, (k1 s hs).2⟩
      · rw [e]
        exact ⟨s.1, (hdraw.2 s hs).1.1, (hdraw.2 s hs).1.2, (k1 s hs).2, (k1 s hs).1⟩
    · have := k2 i hi
      rw [arrayAt_identityLetters h0 h1] at this
      exact ⟨i, h0, h1, this, this⟩
  refine ⟨Plugboard.mk t2, by simp only [Plugboard.init, h2, Option.map_some'], ⟨⟨hl2, ?_⟩, ?_⟩,
    k1, ?_⟩
  · intro x hx
    have hx2 : x ∈ t2 := hx
    obtain ⟨n, hn⟩ := List.mem_iff_getElem?.mp hx2
    have hlt : n < 26 := by
      have := (List.getElem?_eq_some.mp hn).1
      omega
    obtain ⟨j, j0, j1, hj, -⟩ := hentry (n : Int) (by omega) (by omega)
    rw [arrayAt_natCast _ _ hlt, hn] at hj
    injection hj with hj
    unfold isUpperLetter
    omega
  · intro i hi
    obtain ⟨j, j0, j1, hj, hback⟩ := hentry (i : Int) (by omega) (by omega)
    have e : 65 + j - 65 = j := by omega
    show (arrayAt t2 (i : Int)).bind (fun x => arrayAt t2 (x - 65)) = some (65 + (i : Int))
    rw [hj, Option.some_bind, e, hback]
  · intro i h0 h1 hi
    have := k2 i hi
    rw [arrayAt_identityLetters h0 h1] at this
    exact this

/-- Witness of C17: the three cables `A<->M`, `C<->Q`, `H<->Z`. -/
theorem plugboard_init_disjoint_swaps_witness :
    ∃ p, Plugboard.init [(0, 12), (2, 16), (7, 25)] = some p ∧ InvolutionTable p.plugboard ∧
      (∀ s ∈ [((0 : Int), (12 : Int)), (2, 16), (7, 25)],
        arrayAt p.plugboard s.1 = some (65 + s.2) ∧
        arrayAt p.plugboard s.2 = some (65 + s.1)) ∧
      (∀ i : Int, 0 ≤ i → i < 26 → i ∉ Plugboard.touched [(0, 12), (2, 16), (7, 25)] →
        arrayAt p.plugboard i = some (65 + i)) :=
  plugboard_init_disjoint_swaps [(0, 12), (2, 16), (7, 25)] (by decide) (by decide) (by decide)

/-- C12. The claim fails on the code: with the draws `cnt = 2`, `(a, b) = (0, 1)` then
`(1, 2)`, which `Plugboard::init` can make, the table becomes `B, C, A, D, ..., Z`, where
`table[table[0] - 'A'] = 'C'`, not `'A'`: the table built is not an involution. -/
theorem plugboard_init_chained_swaps_not_involution :
    Plugboard.CanDraw [(0, 1), (1, 2)] ∧
    ∃ p, Plugboard.init [(0, 1), (1, 2)] = some p ∧
      p.plugboard = codes "BCADEFGHIJKLMNOPQRSTUVWXYZ" ∧
      (arrayAt p.plugboard 0).bind (fun x => arrayAt p.plugboard (x - 65)) = some 67 ∧
      ¬ InvolutionTable p.plugboard := by
  refine ⟨by decide, Plugboard.mk (codes "BCADEFGHIJKLMNOPQRSTUVWXYZ"), ?_, ?_, ?_, ?_⟩
  · decide
  · rfl
  · decide
  · decide

/-- C19. `Plugboard::init` can break reciprocity: the draws `(0, 1)` then `(1, 2)` (two swaps
sharing index 1) give a plugboard table that has 26 distinct letters but is not an involution;
with the two scrambled rotors and an identity rotor, the paired reflector and key `CTR`, the
machine encodes `ABC` to `FDK`, and the identically configured second machine encodes `FDK` to
`CAB`, which is not `ABC`. -/
theorem plugboard_init_can_break_reciprocity :
    ∃ (swaps : List (Int × Int)) (p : Plugboard) (rotors : List Rotor) (reflector : Reflector)
      (keys S : List Int) (A B : Enigma) (r1 r2 : Enigma × List Int),
      Plugboard.CanDraw swaps ∧ Plugboard.init swaps = some p ∧
      LetterTable p.plugboard ∧ p.plugboard.Nodup ∧ ¬ InvolutionTable p.plugboard ∧
      (∀ r ∈ rotors, r.TablesValid) ∧ InvolutionTable reflector.reflector ∧
      NoFixedPoint reflector.reflector ∧
      (∀ k ∈ keys, isalpha k = true) ∧ (∀ c ∈ S, isalpha c = true) ∧
      Enigma.create keys rotors reflector p = Except.ok A ∧
      Enigma.create keys rotors reflector p = Except.ok B ∧
      A.encode S = some r1 ∧ r1.2 = codes "FDK" ∧
      B.encode r1.2 = some r2 ∧ r2.2 = codes "CAB" ∧ r2.2 ≠ S.map toupper := by
  refine ⟨[(0, 1), (1, 2)], Plugboard.mk (codes "BCADEFGHIJKLMNOPQRSTUVWXYZ"),
    [scrambledRotorA, scrambledRotorB, identityRotor], pairedReflector, codes "CTR",
    codes "ABC",
    Enigma.mk (Enigma.initPositions (codes "CTR")
      [scrambledRotorA, scrambledRotorB, identityRotor]) pairedReflector
      (Plugboard.mk (codes "BCADEFGHIJKLMNOPQRSTUVWXYZ")),
    Enigma.mk (Enigma.initPositions (codes "CTR")
      [scrambledRotorA, scrambledRotorB, identityRotor]) pairedReflector
      (Plugboard.mk (codes "BCADEFGHIJKLMNOPQRSTUVWXYZ")),
    ((Enigma.mk (Enigma.initPositions (codes "CTR")
      [scrambledRotorA, scrambledRotorB, identityRotor]) pairedReflector
      (Plugboard.mk (codes "BCADEFGHIJKLMNOPQRSTUVWXYZ"))).afterLetters 3, codes "FDK"),
    ((Enigma.mk (Enigma.initPositions (codes "CTR")
      [scrambledRotorA, scrambledRotorB, identityRotor]) pairedReflector
      (Plugboard.mk (codes "BCADEFGHIJKLMNOPQRSTUVWXYZ"))).afterLetters 3, codes "CAB"),
    ?_, ?_, ?_, ?_, ?_, ?_, ?_, ?_, ?_, ?_, rfl, rfl, ?_, rfl, ?_, rfl, ?_⟩
  all_goals decide

/-- C20. The constructor does not validate key characters: with the key `1` and one rotor
(any tables, any reflector, no plugboard cable) construction succeeds and leaves the rotor at
position `'1' - 'A' = -16`, outside `0..25`; for the letter `A` the forward index
`(0 + (-16)) % 26` is `-16` under the truncating remainder, `encode_forward` takes its error
branch, and so does `encode` on the text `A`. -/
theorem constructor_accepts_nonletter_key (r : Rotor) (reflector : Reflector) :
    ∃ m, Enigma.create (codes "1") [r] reflector identityPlugboard = Except.ok m ∧
      m.positions = [-16] ∧ (∀ q ∈ m.rotors, ¬ q.PositionInRange) ∧
      ((65 - 65 + (-16) : Int).tmod 26 = -16) ∧
      (∀ q ∈ m.rotors, q.encode_forward 65 = none) ∧
      m.encode (codes "A") = none := by
  have hfwd : (r.init_position (toupper 49)).encode_forward 65 = none := by
    simp only [Rotor.encode_forward, Rotor.init_position]
    have e : ((65 : Int) - 65 + (toupper 49 - 65)).tmod 26 = -16 := by decide
    rw [e]
    unfold arrayAt
    rw [if_neg (by omega)]
  refine ⟨Enigma.mk [r.init_position (toupper 49)] reflector identityPlugboard, rfl, ?_, ?_,
    by decide, ?_, ?_⟩
  · show [(toupper 49 - 65 : Int)] = [-16]
    decide
  · intro q hq
    simp only [List.mem_singleton] at hq
    subst hq
    show ¬ (0 ≤ (toupper 49 - 65 : Int) ∧ (toupper 49 - 65 : Int) < 26)
    decide
  · intro q hq
    simp only [List.mem_singleton] at hq
    subst hq
    exact hfwd
  · have hp : identityPlugboard.plugboard_encode (toupper 65) = some 65 := by decide
    have ha : isalpha 65 = true := by decide
    show Enigma.encode _ [65] = none
    simp only [Enigma.encode, Enigma.encodeChar, ha, Enigma.substitute, hp, Enigma.forwardPass,
      hfwd, Bool.not_true, Bool.false_eq_true, if_false, Option.some_bind, Option.none_bind]
